import Mathlib

/-!
# fhash: a shallow embedding of `fhash.go`

The program walks a directory tree, hashes every file with SHA-512, hashes every
directory over the sorted, name-free lines of its children, and writes a manifest
named `.fhash` into the top directory.

Modelling decisions.

* A Go `string` / `[]byte` is a list of bytes (`Str`); a writer (`io.Writer`, the
  running hash `h`) is the list of bytes written to it so far.
* Library code that is not part of the repository is a field of `Env`:
  `crypto/sha512` (`hash`), `sort.Sort` driven by `Len/Less/Swap` (`sort`) and
  `filepath.Join` (`join`).  `GoInsertionSort` and `pathJoin` are the concrete
  instances used when a definition is evaluated.
* The file system is a tree `FsNode`; `hashDirectory` is handed the children of a
  directory in the order of the list stored in the node, the order in which
  `ioutil.ReadDir` returns them; I/O failures are stored in the node that raises them.
  `asListed` obtains that tree from the order in which the operating system enumerates
  each directory: `ioutil.ReadDir` sorts what is enumerated by filename (`ReadDirSpec`,
  with `sortByName` as an instance).
* `int64` arithmetic wraps (`wrapInt64`).
-/

namespace Fhash

/-! ## Bytes and strings -/

/-- One byte. -/
abbrev Byte := Fin 256

/-- A Go `string` or `[]byte`: a sequence of bytes. -/
abbrev Str := List Byte

/-- An I/O error value (`error` in Go), identified by its message. -/
abbrev IOError := String

/-- The bytes of an ASCII literal. -/
def ascii (s : String) : Str := s.toList.map (fun c => Fin.ofNat c.toNat)

/-- The byte `'\n'`. -/
def NL : Byte := 10

/-- The byte `'/'`, `os.PathSeparator` on Unix. -/
def SEP : Byte := 47

/-- Go's `<` on strings: bytewise lexicographic comparison. -/
def strLess : Str → Str → Bool
  | [], [] => false
  | [], _ :: _ => true
  | _ :: _, [] => false
  | a :: as, b :: bs => if a < b then true else if b < a then false else strLess as bs

/-! ## `encoding/hex` and `fmt` -/

/-- The entry `hextable[n]` of `"0123456789abcdef"`, for `n < 16`. -/
def hexDigit (n : Nat) : Byte := if n < 10 then Fin.ofNat (48 + n) else Fin.ofNat (87 + n)

/-- Go's `hex.EncodeToString`: two lowercase hexadecimal characters per byte, high nibble first. -/
def hexEncode : Str → Str
  | [] => []
  | b :: bs => hexDigit (b.val / 16) :: hexDigit (b.val % 16) :: hexEncode bs

/-- Decimal digits of `n`, most significant first; `fuel` bounds the number of digits. -/
def decDigits : Nat → Nat → Str
  | 0, _ => []
  | fuel + 1, n =>
    if n < 10 then [Fin.ofNat (48 + n)]
    else decDigits fuel (n / 10) ++ [Fin.ofNat (48 + n % 10)]

/-- The verb `%d` on a natural number. -/
def fmtNat (n : Nat) : Str := decDigits (n + 1) n

/-- The verb `%d` on an `int64`. -/
def fmtInt (x : Int) : Str :=
  if x < 0 then Fin.ofNat 45 :: fmtNat (-x).toNat else fmtNat x.toNat

/-- The verb `%c` on a byte-sized integer: the UTF-8 encoding of the code point. -/
def fmtChar (c : Byte) : Str :=
  if c.val < 128 then [c] else [Fin.ofNat (192 + c.val / 64), Fin.ofNat (128 + c.val % 64)]

/-- Reduction of an integer to the range of `int64` (two's complement wrap-around). -/
def wrapInt64 (x : Int) : Int := (x + 2 ^ 63) % 2 ^ 64 - 2 ^ 63

/-! ## `path/filepath` -/

/-- Go's `filepath.Base` on Unix: the last element of the path, trailing slashes removed;
`"."` for the empty path and `"/"` for a path of slashes only. -/
def Base (path : Str) : Str :=
  if path = [] then ascii "."
  else
    let stripped := (path.reverse.dropWhile (fun b => b == SEP))
    let last := (stripped.takeWhile (fun b => b != SEP)).reverse
    if last = [] then [SEP] else last

/-- Split a path at every separator. -/
def splitPath : Str → List Str
  | [] => [[]]
  | b :: bs =>
    if b = SEP then [] :: splitPath bs
    else
      match splitPath bs with
      | [] => [[b]]
      | w :: ws => (b :: w) :: ws

/-- The element loop of `filepath.Clean`: `stack` holds the kept elements, last one first. -/
def cleanElems (rooted : Bool) : List Str → List Str → List Str
  | [], stack => stack.reverse
  | e :: es, stack =>
    if e = [] ∨ e = ascii "." then cleanElems rooted es stack
    else if e = ascii ".." then
      match stack with
      | [] => if rooted then cleanElems rooted es [] else cleanElems rooted es [e]
      | top :: below =>
        if top = ascii ".." then cleanElems rooted es (e :: top :: below)
        else cleanElems rooted es below
    else cleanElems rooted es (e :: stack)

/-- Go's `filepath.Clean` on Unix. -/
def Clean (path : Str) : Str :=
  let rooted := path.head? == some SEP
  let body := List.intercalate [SEP] (cleanElems rooted (splitPath path) [])
  if rooted then SEP :: body else if body = [] then ascii "." else body

/-- Go's `filepath.Join` of a directory and a name on Unix: empty elements are dropped,
the rest joined with a separator and cleaned; all elements empty gives `""`. -/
def pathJoin (dir name : Str) : Str :=
  if dir = [] ∧ name = [] then []
  else if dir = [] then Clean name
  else if name = [] then Clean dir
  else Clean (dir ++ SEP :: name)

/-! ## The data model of `fhash.go` -/

/-- The type `EntryType` of the source, a byte. -/
abbrev EntryType := Byte

/-- The constant `FILE = 'F'` of the source. -/
def FILE : EntryType := 70

/-- The constant `DIR = 'D'` of the source. -/
def DIR : EntryType := 68

/-- The constant `SUMMARY = '#'` of the source. -/
def SUMMARY : EntryType := 35

/-- The constant `FHASH_FILENAME = ".fhash"` of the source. -/
def FHASH_FILENAME : Str := ascii ".fhash"

/-- The struct `HashEntry` of the source; `Typ` is its field `Type`, `Files` has the
type `HashEntries`, a slice of `HashEntry`. -/
inductive HashEntry where
  | mk (Typ : EntryType) (Hash : Str) (Size : Int) (Name : Str) (Files : List HashEntry)

namespace HashEntry

/-- Field `Type`. -/
def Typ : HashEntry → EntryType
  | mk t _ _ _ _ => t

/-- Field `Hash`. -/
def Hash : HashEntry → Str
  | mk _ h _ _ _ => h

/-- Field `Size`. -/
def Size : HashEntry → Int
  | mk _ _ s _ _ => s

/-- Field `Name`. -/
def Name : HashEntry → Str
  | mk _ _ _ n _ => n

/-- Field `Files`. -/
def Files : HashEntry → List HashEntry
  | mk _ _ _ _ fs => fs

end HashEntry

/-- The method `HashEntries.Less`, on two elements of the slice: comparison of the
hexadecimal renderings of the digests. -/
def Less (a b : HashEntry) : Bool := strLess (hexEncode a.Hash) (hexEncode b.Hash)

/-- The library functions the program calls: `sha512` (all bytes written, then `Sum`),
`sort.Sort` on a `HashEntries` and `filepath.Join`. -/
structure Env where
  hash : Str → Str
  sort : List HashEntry → List HashEntry
  join : Str → Str → Str

/-- What `sort.Sort` guarantees: the result is a rearrangement of the slice in which no
element is `Less` than an element before it. -/
def SortSpec (sort : List HashEntry → List HashEntry) : Prop :=
  ∀ l, (sort l).Perm l ∧ (sort l).Pairwise (fun a b => Less b a = false)

/-- The inner loop of Go's `insertionSort`: the element `x` moves left while it is `Less`
than its left neighbour. `sortedRev` is the sorted prefix, last element first. -/
def bubbleLeft (x : HashEntry) : List HashEntry → List HashEntry
  | [] => [x]
  | p :: ps => if Less x p then p :: bubbleLeft x ps else x :: p :: ps

/-- The outer loop of Go's `insertionSort`. -/
def insertionLoop : List HashEntry → List HashEntry → List HashEntry
  | [], sortedRev => sortedRev.reverse
  | x :: rest, sortedRev => insertionLoop rest (bubbleLeft x sortedRev)

/-- Go's `insertionSort`, which `sort.Sort` runs on slices of at most 12 elements. -/
def GoInsertionSort (l : List HashEntry) : List HashEntry := insertionLoop l []

/-- The state of a file on disk: its bytes, and the failure (if any) of `os.Stat`,
`os.Open` and of reading it. `stat.Size()` is the length of `content`. -/
structure FileState where
  content : Str
  statErr : Option IOError
  openErr : Option IOError
  readErr : Option IOError

/-- A node of the file system below a directory: what `ioutil.ReadDir` lists, with its
name. A directory carries the failure (if any) of listing it, and its children in
listing order. -/
inductive FsNode where
  | file (name : Str) (st : FileState)
  | dir (name : Str) (readErr : Option IOError) (children : List FsNode)

namespace FsNode

/-- The method `Name()` of the listed `FileInfo`. -/
def name : FsNode → Str
  | file n _ => n
  | dir n _ _ => n

/-- The method `IsDir()` of the listed `FileInfo`. -/
def isDir : FsNode → Bool
  | file _ _ => false
  | dir _ _ _ => true

end FsNode

/-! ## The functions of `fhash.go` -/

/-- The function `hashFile` of the source, on the node found at `filename`. Reading a
directory as a file fails. -/
def hashFile (env : Env) (filename : Str) : FsNode → Except IOError HashEntry
  | .dir _ _ _ => .error "read: is a directory"
  | .file _ f =>
    match f.statErr with
    | some err => .error err
    | none =>
      match f.openErr with
      | some err => .error err
      | none =>
        match f.readErr with
        | some err => .error err
        | none =>
          .ok (HashEntry.mk FILE (env.hash f.content) (Int.ofNat f.content.length) filename [])

/-- The two `fmt.Fprintf` calls of `printHashEntry`: one line for the entry. -/
def printLine (t : EntryType) (h : Str) (s : Int) (n : Str) (includeName : Bool) : Str :=
  if includeName then
    fmtChar t ++ ascii " " ++ hexEncode h ++ ascii ":" ++ fmtInt s ++ ascii " " ++ Base n ++ [NL]
  else
    fmtChar t ++ ascii " " ++ hexEncode h ++ ascii ":" ++ fmtInt s ++ [NL]

mutual
/-- The function `printHashEntry` of the source; the result is what is written to `w`. -/
def printHashEntry : HashEntry → Bool → Bool → Str
  | .mk t h s n fs, includeName, recursive =>
    printLine t h s n includeName ++
      (if recursive && t == DIR then printFiles fs includeName else [])
/-- The loop `for _, e := range entry.Files` inside `printHashEntry`. -/
def printFiles : List HashEntry → Bool → Str
  | [], _ => []
  | e :: es, includeName => printHashEntry e includeName false ++ printFiles es includeName
end

mutual
/-- The function `hashDirectory` of the source, on the node found at `filename`: for a
directory, `readErr` is the failure of `ioutil.ReadDir` and `files` its result; listing
something that is not a directory fails. -/
def hashDirectory (env : Env) (filename : Str) : FsNode → Except IOError HashEntry
  | .file _ _ => .error "readdir: not a directory"
  | .dir _ readErr files =>
    match readErr with
    | some err => .error err
    | none =>
      match hashLoop env filename files [] 0 with
      | .error err => .error err
      | .ok (fs, size) =>
        let sorted := env.sort fs
        let h := sorted.foldl (fun w e => w ++ printHashEntry e false false) []
        .ok (HashEntry.mk DIR (env.hash h) size (Base filename) sorted)
/-- The loop `for _, file := range files` of `hashDirectory`; `accFiles` and `accSize`
are `dir_entry.Files` and `dir_entry.Size`. -/
def hashLoop (env : Env) (filename : Str) :
    List FsNode → List HashEntry → Int → Except IOError (List HashEntry × Int)
  | [], accFiles, accSize => .ok (accFiles, accSize)
  | file :: rest, accFiles, accSize =>
    if file.name = FHASH_FILENAME then hashLoop env filename rest accFiles accSize
    else
      match (if file.isDir then hashDirectory env (env.join filename file.name) file
             else hashFile env (env.join filename file.name) file) with
      | .error err => .error err
      | .ok entry =>
        hashLoop env filename rest (accFiles ++ [entry]) (wrapInt64 (accSize + entry.Size))
end

/-- The assignment `entry.Type = SUMMARY` of `main`. -/
def setType (e : HashEntry) (t : EntryType) : HashEntry :=
  HashEntry.mk t e.Hash e.Size e.Name e.Files

/-- How the body of the loop over the arguments in `main` ends for one argument. -/
inductive Outcome where
  | panicked (err : IOError)
  | exited (stderr : Str)
  | completed (stdout : Str) (manifest : Str)
  deriving DecidableEq

/-- The body of the loop `for _, arg := range flag.Args()` of `main`, for the argument
`arg`: `statErr` is the failure of `os.Stat(arg)`,
`root` the node found at `arg`, `createErr` the failure of `os.Create`.
On completion: the line printed to standard output and the text written to the manifest. -/
def mainArg (env : Env) (arg : Str) (statErr : Option IOError) (root : FsNode)
    (createErr : Option IOError) : Outcome :=
  match statErr with
  | some err => .panicked err
  | none =>
    if !root.isDir then .exited (ascii "is not a directory:  " ++ arg ++ [NL])
    else
      match hashDirectory env arg root with
      | .error err => .panicked err
      | .ok entry0 =>
        let entry := setType entry0 SUMMARY
        let stdout := arg ++ ascii ": " ++ hexEncode entry.Hash ++ [NL]
        match createErr with
        | some err => .panicked err
        | none => .completed stdout (printHashEntry entry true true)

/-! ## Vocabulary of the specification -/

/-- Concatenation of a sequence of strings. -/
def concatStr : List Str → Str
  | [] => []
  | s :: ss => s ++ concatStr ss

/-- The name-free line of an entry: what `printHashEntry(h, &e, false, false)` writes. -/
def nameFreeLine (e : HashEntry) : Str := printHashEntry e false false

/-- The entry computed for the node found at `path`: the branch on `file.IsDir()` in the
loop of `hashDirectory`. -/
def hashNode (env : Env) (path : Str) (file : FsNode) : Except IOError HashEntry :=
  if file.isDir then hashDirectory env path file else hashFile env path file

/-- The entry computed for one listed child of the directory `filename`. -/
def hashChild (env : Env) (filename : Str) (file : FsNode) : Except IOError HashEntry :=
  hashNode env (env.join filename file.name) file

/-- The entries computed for the listed children of the directory `filename` that are not
named `.fhash`, in listing order; the first failure if one of them fails. -/
def childEntries (env : Env) (filename : Str) : List FsNode → Except IOError (List HashEntry)
  | [] => .ok []
  | node :: rest =>
    if node.name = FHASH_FILENAME then childEntries env filename rest
    else
      match hashChild env filename node with
      | .error err => .error err
      | .ok entry =>
        match childEntries env filename rest with
        | .error err => .error err
        | .ok entries => .ok (entry :: entries)

/-- The running sum `dir_entry.Size += entry.Size` over a sequence of entries. -/
def addSizes (start : Int) (entries : List HashEntry) : Int :=
  entries.foldl (fun s e => wrapInt64 (s + e.Size)) start

/-- The sorted order of a children sequence: no entry is `Less` than one before it. -/
def SortedByDigest (entries : List HashEntry) : Prop :=
  entries.Pairwise (fun a b => Less b a = false)

/-- The triple of an entry that its name-free line renders. -/
def triple (e : HashEntry) : EntryType × Str × Int := (e.Typ, e.Hash, e.Size)

/-- An idealised, collision-free instance of the library functions: the digest of a byte
sequence is the sequence itself. -/
def idEnv : Env := Env.mk (fun s => s) GoInsertionSort pathJoin

/-- A directory that can be listed. -/
def plainDir (name : String) (children : List FsNode) : FsNode :=
  .dir (ascii name) none children

/-- A readable file with the given content. -/
def plainFile (name content : String) : FsNode :=
  .file (ascii name) (FileState.mk (ascii content) none none none)

/-- The entry that `hashDirectory` assembles from the entries of the children. -/
def dirEntry (env : Env) (filename : Str) (es : List HashEntry) : HashEntry :=
  HashEntry.mk DIR (env.hash (concatStr ((env.sort es).map nameFreeLine)))
    (addSizes 0 es) (Base filename) (env.sort es)

/-- Whether the loop of `hashDirectory` processes a listed child: its name is not `.fhash`. -/
def isListed (file : FsNode) : Bool := decide (file.name ≠ FHASH_FILENAME)

/-- The relation `Nested d e`: the entry `d` is `e` itself or lies below it. -/
inductive Nested : HashEntry → HashEntry → Prop where
  | self (e : HashEntry) : Nested e e
  | inside (d c e : HashEntry) : c ∈ e.Files → Nested d c → Nested d e

/-- The relation `Reaches env p x q y`: the traversal that starts at node `x` with path `p`
calls `hashDirectory` on node `y` with path `q`. -/
inductive Reaches (env : Env) : Str → FsNode → Str → FsNode → Prop where
  | here (p : Str) (x : FsNode) : Reaches env p x p x
  | down (p q : Str) (name : Str) (readErr : Option IOError) (files : List FsNode)
      (child y : FsNode) :
      child ∈ files → child.name ≠ FHASH_FILENAME → child.isDir = true →
      Reaches env (env.join p child.name) child q y →
      Reaches env p (.dir name readErr files) q y

/-- The number a string of decimal digits denotes. -/
def decValue (s : Str) : Nat := s.foldl (fun v d => 10 * v + (d.val - 48)) 0

/-- The fields of an entry that `printHashEntry` can print: all but `Files`. -/
def ownFields (e : HashEntry) : EntryType × Str × Int × Str := (e.Typ, e.Hash, e.Size, e.Name)

/-- An entry tree of depth two: a directory with a file and a subdirectory that holds a file. -/
def sampleEntry : HashEntry :=
  HashEntry.mk DIR [1] 3 (ascii "top/d") [
    HashEntry.mk FILE [2] 1 (ascii "top/d/a") [],
    HashEntry.mk DIR [3] 2 (ascii "s") [HashEntry.mk FILE [4] 2 (ascii "top/d/s/x") []]]

/-- A directory tree: `d` lists the file `b`, the subdirectory `s` (which lists the file `x`
and a manifest), the file `a` and a manifest `.fhash`. -/
def sampleTree : FsNode :=
  plainDir "d" [plainFile "b" "world", plainDir "s" [plainFile "x" "yy", plainFile ".fhash" "old"],
    plainFile "a" "hello", plainFile ".fhash" "stale"]

/-- The entry of a successful result; the empty file entry stands for a failure. -/
def entryOf (r : Except IOError HashEntry) : HashEntry :=
  match r with
  | .ok e => e
  | .error _ => HashEntry.mk FILE [] 0 [] []

/-- The order in which `sort.Sort` leaves the digests. -/
def digestLe (h1 h2 : Str) : Prop := strLess (hexEncode h2) (hexEncode h1) = false

/-- Whether, among the entries `fs`, equal digests come with equal kind and size. -/
def tiesAgree (fs : List HashEntry) : Bool :=
  fs.all (fun a => fs.all (fun b => decide (a.Hash = b.Hash → triple a = triple b)))

mutual
/-- Whether, in every children sequence of the entry tree, children with equal digests
have equal kind and size. -/
def tieFree : HashEntry → Bool
  | .mk _ _ _ _ fs => tiesAgree fs && tieFreeAll fs
/-- The check `tieFree` on every entry of a sequence. -/
def tieFreeAll : List HashEntry → Bool
  | [] => true
  | e :: es => tieFree e && tieFreeAll es
end

/-- The relation `Reordered l1 l2` between two listings: `l2` reports the children of `l1`
in another order, and so does the listing of every subdirectory, at any depth. -/
inductive Reordered : List FsNode → List FsNode → Prop where
  | nil : Reordered [] []
  | file (n : Str) (st : FileState) (l1 l2 : List FsNode) :
      Reordered l1 l2 → Reordered (.file n st :: l1) (.file n st :: l2)
  | dir (n : Str) (readErr : Option IOError) (ch1 ch2 l1 l2 : List FsNode) :
      Reordered ch1 ch2 → Reordered l1 l2 →
      Reordered (.dir n readErr ch1 :: l1) (.dir n readErr ch2 :: l2)
  | perm (l1 l1' l2 : List FsNode) : l1.Perm l1' → Reordered l1' l2 → Reordered l1 l2

/-- What `sort.Sort` cannot see: it reaches the slice only through `Len`, `Less` and
`Swap`, and `Less` reads only the digests, so on two slices whose entries correspond
position by position and have equal digests it performs the same swaps, and the results
correspond position by position. -/
def SortOblivious (sort : List HashEntry → List HashEntry) : Prop :=
  ∀ R : HashEntry → HashEntry → Prop, (∀ a b, R a b → a.Hash = b.Hash) →
    ∀ l l', List.Forall₂ R l l' → List.Forall₂ R (sort l) (sort l')

/-- The relation `SameContents l l'` between two listings: the same files and directories
in the same order with the same contents, at any depth, up to the names, where a name is
`.fhash` on one side exactly when it is on the other. -/
inductive SameContents : List FsNode → List FsNode → Prop where
  | nil : SameContents [] []
  | file (n n' : Str) (st : FileState) (l l' : List FsNode) :
      (n = FHASH_FILENAME ↔ n' = FHASH_FILENAME) → SameContents l l' →
      SameContents (.file n st :: l) (.file n' st :: l')
  | dir (n n' : Str) (readErr : Option IOError) (ch ch' l l' : List FsNode) :
      (n = FHASH_FILENAME ↔ n' = FHASH_FILENAME) → SameContents ch ch' → SameContents l l' →
      SameContents (.dir n readErr ch :: l) (.dir n' readErr ch' :: l')

/-- The relation `Renamed t t'`: the tree `t'` is the tree `t` after one file or one
directory in it (possibly `t` itself) got a new name, where neither the old nor the new
name is `.fhash`; contents and listing order are unchanged. -/
inductive Renamed : FsNode → FsNode → Prop where
  | file (n n' : Str) (st : FileState) :
      n ≠ FHASH_FILENAME → n' ≠ FHASH_FILENAME → Renamed (.file n st) (.file n' st)
  | dir (n n' : Str) (readErr : Option IOError) (ch : List FsNode) :
      n ≠ FHASH_FILENAME → n' ≠ FHASH_FILENAME →
      Renamed (.dir n readErr ch) (.dir n' readErr ch)
  | inside (n : Str) (readErr : Option IOError) (pre post : List FsNode) (x x' : FsNode) :
      Renamed x x' →
      Renamed (.dir n readErr (pre ++ x :: post)) (.dir n readErr (pre ++ x' :: post))

/-- What `SameContents` gives for two corresponding nodes: both are skipped or neither,
and if the first yields an entry, so does the second, with the same kind, digest and size,
whatever the paths. -/
def NodeAgree (env : Env) (x x' : FsNode) : Prop :=
  (x.name = FHASH_FILENAME ↔ x'.name = FHASH_FILENAME) ∧
  ∀ (q q' : Str) (e : HashEntry), hashNode env q x = .ok e →
    ∃ e', hashNode env q' x' = .ok e' ∧ triple e = triple e'

/-- The relation `Changed t t'`: the tree `t'` is the tree `t` with another content in one
file that the traversal reaches (no name on the way to it, its own included, is `.fhash`);
`t` is that file or a directory above it. Changing one byte of the content is a case. -/
inductive Changed : FsNode → FsNode → Prop where
  | file (n c c' : Str) (statErr openErr readErr : Option IOError) : c ≠ c' →
      Changed (.file n (FileState.mk c statErr openErr readErr))
        (.file n (FileState.mk c' statErr openErr readErr))
  | inside (n : Str) (readErr : Option IOError) (pre post : List FsNode) (x x' : FsNode) :
      x.name ≠ FHASH_FILENAME → Changed x x' →
      Changed (.dir n readErr (pre ++ x :: post)) (.dir n readErr (pre ++ x' :: post))

mutual
/-- The number of bytes of the files below a node that the traversal reaches: the length
of a file, and for a directory the sum over its listed children not named `.fhash`. -/
def totalBytes : FsNode → Nat
  | .file _ st => st.content.length
  | .dir _ _ children => listBytes children
/-- The sum of `totalBytes` over the children of a listing that are not named `.fhash`. -/
def listBytes : List FsNode → Nat
  | [] => 0
  | x :: rest => (if x.name = FHASH_FILENAME then 0 else totalBytes x) + listBytes rest
end

mutual
/-- Whether the traversal of a node meets a failure: for a file, `os.Stat`, `os.Open` or
reading fails; for a directory, listing it fails or the traversal of a listed child not
named `.fhash` meets a failure. -/
def nodeFails : FsNode → Bool
  | .file _ st => st.statErr.isSome || st.openErr.isSome || st.readErr.isSome
  | .dir _ readErr children => readErr.isSome || listFails children
/-- Whether the traversal of some child of a listing not named `.fhash` meets a failure. -/
def listFails : List FsNode → Bool
  | [] => false
  | x :: rest => (decide (x.name ≠ FHASH_FILENAME) && nodeFails x) || listFails rest
end

/-- The name-free line that renders a triple of kind, digest and size. -/
def tripleLine (t : EntryType × Str × Int) : Str := printLine t.1 t.2.1 t.2.2 [] false

/-- A file that cannot be opened. -/
def brokenFile (name : String) : FsNode :=
  .file (ascii name) (FileState.mk [] none (some "open: permission denied") none)

/-! ## `ioutil.ReadDir` and the order of enumeration -/

/-- What `ioutil.ReadDir` guarantees about order: it returns the entries that the operating
system enumerates, in whatever order they come, sorted by filename. -/
def ReadDirSpec (readDir : List FsNode → List FsNode) : Prop :=
  ∀ l, (readDir l).Perm l ∧ (readDir l).Pairwise (fun a b => strLess b.name a.name = false)

/-- Insertion of a node into a list sorted by filename. -/
def insertByName (x : FsNode) : List FsNode → List FsNode
  | [] => [x]
  | y :: ys => if strLess y.name x.name then y :: insertByName x ys else x :: y :: ys

/-- An instance of the sort by filename in `ioutil.ReadDir`
(`sort.Slice(list, func(i, j) { return list[i].Name() < list[j].Name() })`). -/
def sortByName : List FsNode → List FsNode
  | [] => []
  | x :: xs => insertByName x (sortByName xs)

mutual
/-- The tree as `hashDirectory` is handed it, from the tree in the order the operating
system enumerates each directory: every listing goes through `ioutil.ReadDir`. -/
def asListed (readDir : List FsNode → List FsNode) : FsNode → FsNode
  | .file n st => .file n st
  | .dir n readErr children => .dir n readErr (readDir (asListedAll readDir children))
/-- The nodes of an enumeration, each as `hashDirectory` is handed it. -/
def asListedAll (readDir : List FsNode → List FsNode) : List FsNode → List FsNode
  | [] => []
  | x :: xs => asListed readDir x :: asListedAll readDir xs
end

mutual
/-- Whether, in every directory of the tree, no two children have the same name, as in
every file system. -/
def namesDistinct : FsNode → Bool
  | .file _ _ => true
  | .dir _ _ children =>
    decide ((children.map FsNode.name).Nodup) && namesDistinctAll children
/-- The check `namesDistinct` on every node of a list. -/
def namesDistinctAll : List FsNode → Bool
  | [] => true
  | x :: xs => namesDistinct x && namesDistinctAll xs
end

/-- The readable file with the given name and content. -/
def fileNode (p : Str × Str) : FsNode := .file p.1 (FileState.mk p.2 none none none)

/-! ## Basic facts about the embedding -/

theorem printHashEntry_flat (e : HashEntry) (includeName : Bool) :
    printHashEntry e includeName false = printLine e.Typ e.Hash e.Size e.Name includeName := by
  cases e
  simp [printHashEntry, HashEntry.Typ, HashEntry.Hash, HashEntry.Size, HashEntry.Name]

theorem printFiles_eq (fs : List HashEntry) (includeName : Bool) :
    printFiles fs includeName
      = concatStr (fs.map (fun c => printHashEntry c includeName false)) := by
  induction fs with
  | nil => simp [printFiles, concatStr]
  | cons e es ih => simp [printFiles, concatStr, ih]

theorem foldl_write (f : HashEntry → Str) (l : List HashEntry) (w : Str) :
    l.foldl (fun w e => w ++ f e) w = w ++ concatStr (l.map f) := by
  induction l generalizing w with
  | nil => simp [concatStr]
  | cons e es ih => simp [concatStr, ih]

theorem addSizes_cons (s : Int) (e : HashEntry) (es : List HashEntry) :
    addSizes s (e :: es) = addSizes (wrapInt64 (s + e.Size)) es := rfl

theorem hashLoop_eq (env : Env) (filename : Str) (files : List FsNode) :
    ∀ (accFiles : List HashEntry) (accSize : Int),
      hashLoop env filename files accFiles accSize =
        match childEntries env filename files with
        | .error err => .error err
        | .ok es => .ok (accFiles ++ es, addSizes accSize es) := by
  induction files with
  | nil => intro a s; simp [hashLoop, childEntries, addSizes]
  | cons file rest ih =>
    intro a s
    rw [hashLoop, childEntries]
    by_cases hn : file.name = FHASH_FILENAME
    · simp only [hn, if_true]; exact ih a s
    · simp only [hn, if_false, hashChild, hashNode]
      cases hc : (if file.isDir then hashDirectory env (env.join filename file.name) file
             else hashFile env (env.join filename file.name) file) with
      | error err => simp
      | ok entry =>
        simp only []
        rw [ih]
        cases childEntries env filename rest with
        | error err => simp
        | ok es => simp [addSizes_cons]

theorem hashDirectory_dir (env : Env) (filename name : Str) (files : List FsNode) :
    hashDirectory env filename (.dir name none files) =
      match childEntries env filename files with
      | .error err => .error err
      | .ok es => .ok (dirEntry env filename es) := by
  rw [hashDirectory]
  simp only [hashLoop_eq]
  cases childEntries env filename files with
  | error err => simp
  | ok es => simp [dirEntry, foldl_write]; rfl

theorem hashDirectory_ok (env : Env) (filename : Str) (node : FsNode) (e : HashEntry)
    (h : hashDirectory env filename node = .ok e) :
    ∃ name files es, node = .dir name none files ∧ childEntries env filename files = .ok es ∧
      e = dirEntry env filename es := by
  cases node with
  | file n st => simp [hashDirectory] at h
  | dir name readErr files =>
    cases readErr with
    | some err => simp [hashDirectory] at h
    | none =>
      rw [hashDirectory_dir] at h
      cases hc : childEntries env filename files with
      | error err => simp [hc] at h
      | ok es =>
        simp only [hc, Except.ok.injEq] at h
        exact ⟨name, files, es, rfl, hc, h.symm⟩

/-! ## Formatting -/

theorem ofNat_val (n : Nat) (h : n < 256) : ((Fin.ofNat n : Byte)).val = n := by
  simp [Fin.ofNat, Nat.mod_eq_of_lt h]

theorem hexDigit_mem : ∀ n, n < 16 → hexDigit n ∈ ascii "0123456789abcdef" := by decide

theorem hexEncode_length (h : Str) : (hexEncode h).length = 2 * h.length := by
  induction h with
  | nil => rfl
  | cons b bs ih => simp [hexEncode, ih]; omega

theorem hexEncode_mem (h : Str) : ∀ c ∈ hexEncode h, c ∈ ascii "0123456789abcdef" := by
  induction h with
  | nil => intro c hc; simp [hexEncode] at hc
  | cons b bs ih =>
    intro c hc
    simp only [hexEncode, List.mem_cons] at hc
    rcases hc with rfl | rfl | hc
    · exact hexDigit_mem _ (by omega)
    · exact hexDigit_mem _ (Nat.mod_lt _ (by decide))
    · exact ih c hc

theorem decValue_append (a : Str) (d : Byte) :
    decValue (a ++ [d]) = 10 * decValue a + (d.val - 48) := by
  simp [decValue, List.foldl_append]

theorem decDigits_spec : ∀ fuel n, n < fuel →
    decValue (decDigits fuel n) = n ∧ decDigits fuel n ≠ [] ∧
      ∀ c ∈ decDigits fuel n, 48 ≤ c.val ∧ c.val ≤ 57 := by
  intro fuel
  induction fuel with
  | zero => intro n h; omega
  | succ k ih =>
    intro n h
    rw [decDigits]
    by_cases h10 : n < 10
    · simp only [h10, if_true]
      have hv : ((Fin.ofNat (48 + n) : Byte)).val = 48 + n := ofNat_val _ (by omega)
      refine ⟨?_, by simp, ?_⟩
      · simp [decValue, hv]
      · intro c hc
        simp only [List.mem_singleton] at hc
        subst hc
        omega
    · simp only [h10, if_false]
      have hk : n / 10 < k := by omega
      obtain ⟨h1, h2, h3⟩ := ih (n / 10) hk
      have hv : ((Fin.ofNat (48 + n % 10) : Byte)).val = 48 + n % 10 := ofNat_val _ (by omega)
      refine ⟨?_, by simp, ?_⟩
      · rw [decValue_append, h1, hv]; omega
      · intro c hc
        simp only [List.mem_append, List.mem_singleton] at hc
        rcases hc with hc | rfl
        · exact h3 c hc
        · omega

theorem fmtNat_spec (n : Nat) :
    decValue (fmtNat n) = n ∧ fmtNat n ≠ [] ∧ ∀ c ∈ fmtNat n, 48 ≤ c.val ∧ c.val ≤ 57 :=
  decDigits_spec (n + 1) n (Nat.lt_succ_self n)

theorem digit_mem_ascii (c : Byte) (h : 48 ≤ c.val ∧ c.val ≤ 57) : c ∈ ascii "0123456789" := by
  have key : ∀ k, k < 10 → (Fin.ofNat (48 + k) : Byte) ∈ ascii "0123456789" := by decide
  have hc : c = Fin.ofNat (48 + (c.val - 48)) := by
    apply Fin.ext
    rw [ofNat_val _ (by omega)]
    omega
  rw [hc]
  exact key _ (by omega)

/-! ## The order on digests -/

theorem strLess_irrefl (a : Str) : strLess a a = false := by
  induction a with
  | nil => rfl
  | cons x xs ih => simp [strLess, ih]

theorem strLess_antisymm : ∀ (a b : Str), strLess a b = false → strLess b a = false → a = b := by
  intro a
  induction a with
  | nil =>
    intro b h1 h2
    cases b with
    | nil => rfl
    | cons y ys => simp [strLess] at h1
  | cons x xs ih =>
    intro b h1 h2
    cases b with
    | nil => simp [strLess] at h2
    | cons y ys =>
      simp only [strLess] at h1 h2
      by_cases hxy : x < y
      · simp [hxy] at h1
      · by_cases hyx : y < x
        · simp [hyx] at h2
        · simp only [hxy, hyx, if_false] at h1 h2
          have hx : x = y := le_antisymm (not_lt.mp hyx) (not_lt.mp hxy)
          rw [hx, ih ys h1 h2]

theorem strLess_trans : ∀ (a b c : Str), strLess a b = true → strLess b c = true →
    strLess a c = true := by
  intro a
  induction a with
  | nil =>
    intro b c h1 h2
    cases b with
    | nil => simp [strLess] at h1
    | cons y ys =>
      cases c with
      | nil => simp [strLess] at h2
      | cons z zs => simp [strLess]
  | cons x xs ih =>
    intro b c h1 h2
    cases b with
    | nil => simp [strLess] at h1
    | cons y ys =>
      cases c with
      | nil => simp [strLess] at h2
      | cons z zs =>
        simp only [strLess] at h1 h2 ⊢
        by_cases hxy : x < y
        · by_cases hyz : y < z
          · simp [lt_trans hxy hyz]
          · by_cases hzy : z < y
            · simp [hyz, hzy] at h2
            · have : y = z := le_antisymm (not_lt.mp hzy) (not_lt.mp hyz)
              subst this
              simp [hxy]
        · by_cases hyx : y < x
          · simp [hxy, hyx] at h1
          · have hx : x = y := le_antisymm (not_lt.mp hyx) (not_lt.mp hxy)
            subst hx
            simp only [hxy, hyx, if_false] at h1
            by_cases hxz : x < z
            · simp [hxz]
            · by_cases hzx : z < x
              · simp [hxz, hzx] at h2
              · simp only [hxz, hzx, if_false] at h2 ⊢
                exact ih ys zs h1 h2

theorem strLess_total (a b : Str) : strLess a b = true ∨ a = b ∨ strLess b a = true := by
  by_cases h1 : strLess a b = true
  · exact Or.inl h1
  · by_cases h2 : strLess b a = true
    · exact Or.inr (Or.inr h2)
    · exact Or.inr (Or.inl (strLess_antisymm a b (by simpa using h1) (by simpa using h2)))

/-- Not-greater is transitive. -/
theorem strLess_le_trans (a b c : Str) (h1 : strLess b a = false) (h2 : strLess c b = false) :
    strLess c a = false := by
  by_contra hc
  have hca : strLess c a = true := by simpa using hc
  rcases strLess_total a b with h | h | h
  · have := strLess_trans c a b hca h
    rw [h2] at this; exact absurd this (by decide)
  · subst h; rw [h2] at hca; exact absurd hca (by decide)
  · rw [h1] at h; exact absurd h (by decide)

theorem perm_pair {α : Type} (l : List α) (a b : α) (h : l.Perm [a, b]) :
    l = [a, b] ∨ l = [b, a] := by
  have hlen := h.length_eq
  match l, hlen with
  | [x, y], _ =>
    have hx : x ∈ [a, b] := h.subset (by simp)
    have hy : y ∈ [a, b] := h.subset (by simp)
    have ha : a ∈ [x, y] := h.symm.subset (by simp)
    have hb : b ∈ [x, y] := h.symm.subset (by simp)
    simp only [List.mem_cons, List.mem_singleton, List.not_mem_nil, or_false] at hx hy ha hb
    rcases hx with rfl | rfl <;> rcases hy with rfl | rfl
    · rcases hb with rfl | rfl <;> simp
    · simp
    · simp
    · rcases ha with rfl | rfl <;> simp

/-! ## The loop over the children -/

theorem hashFile_ok (env : Env) (path : Str) (x : FsNode) (e : HashEntry)
    (h : hashFile env path x = .ok e) :
    ∃ name content, x = .file name (FileState.mk content none none none) ∧
      e = HashEntry.mk FILE (env.hash content) (Int.ofNat content.length) path [] := by
  cases x with
  | dir n re ch => simp [hashFile] at h
  | file n st =>
    obtain ⟨c, se, oe, re⟩ := st
    cases se with
    | some err => simp [hashFile] at h
    | none =>
      cases oe with
      | some err => simp [hashFile] at h
      | none =>
        cases re with
        | some err => simp [hashFile] at h
        | none =>
          simp only [hashFile, Except.ok.injEq] at h
          exact ⟨n, c, rfl, h.symm⟩

theorem childEntries_filter (env : Env) (filename : Str) (files : List FsNode) :
    childEntries env filename (files.filter isListed) = childEntries env filename files := by
  induction files with
  | nil => rfl
  | cons x rest ih =>
    by_cases hn : x.name = FHASH_FILENAME
    · have : isListed x = false := by simp [isListed, hn]
      rw [List.filter_cons_of_neg (by simp [this]), ih]
      simp [childEntries, hn]
    · have : isListed x = true := by simp [isListed, hn]
      rw [List.filter_cons_of_pos this]
      simp only [childEntries, hn, if_false, ih]

theorem childEntries_cons_ok (env : Env) (filename : Str) (x : FsNode) (rest : List FsNode)
    (hn : x.name ≠ FHASH_FILENAME) (es : List HashEntry) :
    childEntries env filename (x :: rest) = .ok es ↔
      ∃ e tl, hashChild env filename x = .ok e ∧ childEntries env filename rest = .ok tl ∧
        es = e :: tl := by
  simp only [childEntries, hn, if_false]
  cases hc : hashChild env filename x with
  | error err => simp
  | ok e =>
    cases hr : childEntries env filename rest with
    | error err => simp
    | ok tl =>
      simp only [Except.ok.injEq]
      constructor
      · intro h; exact ⟨e, tl, rfl, rfl, h.symm⟩
      · rintro ⟨e', tl', h1, h2, h3⟩; rw [h3, h1, h2]

theorem childEntries_cons_skip (env : Env) (filename : Str) (x : FsNode) (rest : List FsNode)
    (hn : x.name = FHASH_FILENAME) :
    childEntries env filename (x :: rest) = childEntries env filename rest := by
  simp [childEntries, hn]

theorem childEntries_mem (env : Env) (filename : Str) (files : List FsNode) :
    ∀ es, childEntries env filename files = .ok es → ∀ c ∈ es,
      ∃ child ∈ files, child.name ≠ FHASH_FILENAME ∧ hashChild env filename child = .ok c := by
  induction files with
  | nil =>
    intro es h c hc
    simp only [childEntries, Except.ok.injEq] at h
    subst h
    simp at hc
  | cons x rest ih =>
    intro es h c hc
    by_cases hn : x.name = FHASH_FILENAME
    · rw [childEntries_cons_skip env filename x rest hn] at h
      obtain ⟨child, hm, h1, h2⟩ := ih es h c hc
      exact ⟨child, List.mem_cons_of_mem _ hm, h1, h2⟩
    · obtain ⟨e, tl, h1, h2, h3⟩ := (childEntries_cons_ok env filename x rest hn es).mp h
      subst h3
      rcases List.mem_cons.mp hc with rfl | hc
      · exact ⟨x, List.mem_cons_self _ _, hn, h1⟩
      · obtain ⟨child, hm, h4, h5⟩ := ih tl h2 c hc
        exact ⟨child, List.mem_cons_of_mem _ hm, h4, h5⟩

theorem dirEntry_fields (env : Env) (filename : Str) (es : List HashEntry) :
    (dirEntry env filename es).Typ = DIR ∧
    (dirEntry env filename es).Hash = env.hash (concatStr ((env.sort es).map nameFreeLine)) ∧
    (dirEntry env filename es).Size = addSizes 0 es ∧
    (dirEntry env filename es).Name = Base filename ∧
    (dirEntry env filename es).Files = env.sort es := ⟨rfl, rfl, rfl, rfl, rfl⟩

theorem nameFreeLine_eq (e : HashEntry) :
    nameFreeLine e = fmtChar e.Typ ++ ascii " " ++ hexEncode e.Hash ++ ascii ":" ++ fmtInt e.Size
      ++ ascii "\n" := by
  have hnl : ascii "\n" = [NL] := by decide
  rw [nameFreeLine, printHashEntry_flat, hnl]
  simp [printLine]

theorem mainArg_completed (env : Env) (arg : Str) (statErr createErr : Option IOError)
    (root : FsNode) (stdout manifest : Str)
    (h : mainArg env arg statErr root createErr = .completed stdout manifest) :
    ∃ e, hashDirectory env arg root = .ok e ∧
      stdout = arg ++ ascii ": " ++ hexEncode e.Hash ++ [NL] ∧
      manifest = printLine SUMMARY e.Hash e.Size e.Name true := by
  unfold mainArg at h
  cases statErr with
  | some err => simp at h
  | none =>
    simp only at h
    by_cases hd : root.isDir
    · simp only [hd, Bool.not_true, Bool.false_eq_true, if_false] at h
      cases hh : hashDirectory env arg root with
      | error err => simp [hh] at h
      | ok e =>
        simp only [hh] at h
        cases createErr with
        | some err => simp at h
        | none =>
          simp only [Outcome.completed.injEq] at h
          refine ⟨e, rfl, ?_, ?_⟩
          · rw [← h.1]; simp [setType, HashEntry.Hash]
          · rw [← h.2]
            cases e
            simp [setType, printHashEntry, HashEntry.Hash, HashEntry.Size, HashEntry.Name,
              show ¬ (SUMMARY = DIR) by decide]
    · simp [hd] at h

/-! ## Insertion sort meets the contract of `sort.Sort` -/

theorem Less_asymm (a b : HashEntry) (h : Less a b = true) : Less b a = false := by
  by_contra hc
  have hc' : Less b a = true := by simpa using hc
  have := strLess_trans _ _ _ h hc'
  rw [strLess_irrefl] at this
  exact absurd this (by decide)

theorem bubbleLeft_perm (x : HashEntry) (acc : List HashEntry) :
    (bubbleLeft x acc).Perm (x :: acc) := by
  induction acc with
  | nil => exact List.Perm.refl _
  | cons p ps ih =>
    simp only [bubbleLeft]
    by_cases h : Less x p = true
    · simp only [h, if_true]
      exact (List.Perm.cons p ih).trans (List.Perm.swap x p ps)
    · simp only [h]
      exact List.Perm.refl _

theorem bubbleLeft_sorted (x : HashEntry) (acc : List HashEntry)
    (h : acc.Pairwise (fun a b => Less a b = false)) :
    (bubbleLeft x acc).Pairwise (fun a b => Less a b = false) := by
  induction acc with
  | nil => simp [bubbleLeft]
  | cons p ps ih =>
    obtain ⟨hp, hps⟩ := List.pairwise_cons.mp h
    simp only [bubbleLeft]
    by_cases hx : Less x p = true
    · simp only [hx, if_true]
      refine List.pairwise_cons.mpr ⟨?_, ih hps⟩
      intro q hq
      rcases List.mem_cons.mp ((bubbleLeft_perm x ps).subset hq) with rfl | hq
      · exact Less_asymm _ _ hx
      · exact hp q hq
    · have hx' : Less x p = false := by simpa using hx
      simp only [hx]
      refine List.pairwise_cons.mpr ⟨?_, h⟩
      intro q hq
      rcases List.mem_cons.mp hq with rfl | hq
      · exact hx'
      · exact strLess_le_trans _ _ _ (hp q hq) hx'

theorem insertionLoop_perm (l acc : List HashEntry) :
    (insertionLoop l acc).Perm (l ++ acc) := by
  induction l generalizing acc with
  | nil => simp [insertionLoop]
  | cons x rest ih =>
    simp only [insertionLoop]
    refine (ih _).trans ?_
    refine (List.Perm.append_left rest (bubbleLeft_perm x acc)).trans ?_
    simp

theorem insertionLoop_sorted (l acc : List HashEntry)
    (h : acc.Pairwise (fun a b => Less a b = false)) :
    (insertionLoop l acc).Pairwise (fun a b => Less b a = false) := by
  induction l generalizing acc with
  | nil => simpa [insertionLoop, List.pairwise_reverse] using h
  | cons x rest ih =>
    simp only [insertionLoop]
    exact ih _ (bubbleLeft_sorted x acc h)

theorem GoInsertionSort_spec : SortSpec GoInsertionSort := by
  intro l
  refine ⟨?_, insertionLoop_sorted l [] List.Pairwise.nil⟩
  simpa [GoInsertionSort] using insertionLoop_perm l []

theorem hashChild_cases (env : Env) (filename : Str) (child : FsNode) (c : HashEntry)
    (h : hashChild env filename child = .ok c) :
    (child.isDir = true ∧ hashDirectory env (env.join filename child.name) child = .ok c) ∨
    (child.isDir = false ∧ hashFile env (env.join filename child.name) child = .ok c) := by
  unfold hashChild hashNode at h
  by_cases hd : child.isDir = true
  · simp only [hd, if_true] at h
    exact Or.inl ⟨hd, h⟩
  · simp only [hd] at h
    exact Or.inr ⟨by simpa using hd, h⟩

theorem nested_leaf (d c : HashEntry) (hc : c.Files = []) (h : Nested d c) : d = c := by
  cases h
  · rfl
  · simp_all

theorem nested_dir_sorted (env : Env) (hsort : SortSpec env.sort) (d e : HashEntry)
    (hn : Nested d e) :
    ∀ (filename : Str) (node : FsNode), hashDirectory env filename node = .ok e →
      d.Typ = DIR →
      ∃ q name files es, Reaches env filename node q (.dir name none files) ∧
        childEntries env q files = .ok es ∧ d.Files.Perm es ∧ SortedByDigest d.Files := by
  induction hn with
  | self =>
    intro filename node h _
    obtain ⟨name, files, es, hnode, hce, he⟩ := hashDirectory_ok env filename node _ h
    subst hnode
    refine ⟨filename, name, files, es, Reaches.here _ _, hce, ?_, ?_⟩
    · rw [he]; exact (hsort es).1
    · rw [he]; exact (hsort es).2
  | inside c e hc hdc ih =>
    intro filename node h hd
    obtain ⟨name, files, es, hnode, hce, he⟩ := hashDirectory_ok env filename node e h
    subst hnode
    have hc' : c ∈ es := by
      rw [he] at hc
      exact (hsort es).1.subset hc
    obtain ⟨child, hmem, hname, hchild⟩ := childEntries_mem env filename files es hce c hc'
    rcases hashChild_cases env filename child c hchild with ⟨hdir, hh⟩ | ⟨_, hh⟩
    · obtain ⟨q, name', files', es', hr, h1, h2, h3⟩ := ih _ _ hh hd
      exact ⟨q, name', files', es',
        Reaches.down filename q name none files child _ hmem hname hdir hr, h1, h2, h3⟩
    · obtain ⟨n, content, _, hcfile⟩ := hashFile_ok env _ child c hh
      have := nested_leaf d c (by rw [hcfile]; rfl) hdc
      rw [this, hcfile] at hd
      simp only [HashEntry.Typ] at hd
      exact absurd hd (by decide)

theorem hashDirectory_filter (env : Env) (filename name : Str) (readErr : Option IOError)
    (files files' : List FsNode) (h : files.filter isListed = files'.filter isListed) :
    hashDirectory env filename (.dir name readErr files) =
      hashDirectory env filename (.dir name readErr files') := by
  cases readErr with
  | some err => simp [hashDirectory]
  | none =>
    rw [hashDirectory_dir, hashDirectory_dir, ← childEntries_filter env filename files, h,
      childEntries_filter]

/-! ## Sorted sequences of digests are unique -/

theorem hexDigit_inj : ∀ m, m < 16 → ∀ n, n < 16 → hexDigit m = hexDigit n → m = n := by
  decide

theorem hexEncode_injective : ∀ a b : Str, hexEncode a = hexEncode b → a = b := by
  intro a
  induction a with
  | nil =>
    intro b h
    cases b with
    | nil => rfl
    | cons y ys => simp [hexEncode] at h
  | cons x xs ih =>
    intro b h
    cases b with
    | nil => simp [hexEncode] at h
    | cons y ys =>
      simp only [hexEncode, List.cons.injEq] at h
      obtain ⟨h1, h2, h3⟩ := h
      have hx := x.isLt
      have hy := y.isLt
      have e1 := hexDigit_inj _ (by omega) _ (by omega) h1
      have e2 := hexDigit_inj _ (Nat.mod_lt _ (by decide)) _ (Nat.mod_lt _ (by decide)) h2
      have hxy : x = y := Fin.ext (by omega)
      rw [hxy, ih ys h3]

theorem digestLe_antisymm (a b : Str) (h1 : digestLe a b) (h2 : digestLe b a) : a = b :=
  hexEncode_injective a b (strLess_antisymm _ _ h2 h1)

theorem sorted_digests_unique (s1 s2 : List HashEntry)
    (hperm : (s1.map HashEntry.Hash).Perm (s2.map HashEntry.Hash))
    (h1 : SortedByDigest s1) (h2 : SortedByDigest s2) :
    s1.map HashEntry.Hash = s2.map HashEntry.Hash := by
  haveI : IsAntisymm Str digestLe := ⟨digestLe_antisymm⟩
  have hs : ∀ s : List HashEntry, SortedByDigest s →
      List.Sorted digestLe (s.map HashEntry.Hash) := by
    intro s hs
    exact List.pairwise_map.mpr hs
  exact List.eq_of_perm_of_sorted hperm (hs s1 h1) (hs s2 h2)

theorem map_eq_of_key_eq {α β γ : Type} (key : α → β) (val : α → γ) :
    ∀ l1 l2 : List α, l1.map key = l2.map key →
      (∀ x ∈ l1, ∀ y ∈ l2, key x = key y → val x = val y) → l1.map val = l2.map val := by
  intro l1
  induction l1 with
  | nil =>
    intro l2 h _
    cases l2 with
    | nil => rfl
    | cons y ys => simp at h
  | cons x xs ih =>
    intro l2 h hv
    cases l2 with
    | nil => simp at h
    | cons y ys =>
      simp only [List.map_cons, List.cons.injEq] at h ⊢
      refine ⟨hv x (by simp) y (by simp) h.1, ih ys h.2 ?_⟩
      intro a ha b hb
      exact hv a (List.mem_cons_of_mem _ ha) b (List.mem_cons_of_mem _ hb)

theorem triple_hash (e : HashEntry) : (triple e).2.1 = e.Hash := rfl

/-- Two sorted sequences that hold the same triples, where equal digests come with equal
triples, list the triples in the same order. -/
theorem sorted_triples_unique (s1 s2 : List HashEntry)
    (hperm : (s1.map triple).Perm (s2.map triple))
    (h1 : SortedByDigest s1) (h2 : SortedByDigest s2)
    (htie : ∀ a ∈ s1, ∀ b ∈ s1, a.Hash = b.Hash → triple a = triple b) :
    s1.map triple = s2.map triple := by
  have hp : (s1.map HashEntry.Hash).Perm (s2.map HashEntry.Hash) := by
    have := hperm.map (fun t : EntryType × Str × Int => t.2.1)
    simpa [List.map_map, Function.comp, triple] using this
  have hk := sorted_digests_unique s1 s2 hp h1 h2
  apply map_eq_of_key_eq HashEntry.Hash triple s1 s2 hk
  intro x hx y hy hxy
  have hy' : triple y ∈ s1.map triple := hperm.symm.subset (List.mem_map_of_mem _ hy)
  obtain ⟨a, ha, hay⟩ := List.mem_map.mp hy'
  have hah : a.Hash = y.Hash := by rw [← triple_hash a, hay]; rfl
  have := htie a ha x hx (by rw [hah, hxy])
  rw [← this, hay]

theorem nameFreeLine_of_triple (a b : HashEntry) (h : triple a = triple b) :
    nameFreeLine a = nameFreeLine b := by
  simp only [triple, Prod.mk.injEq] at h
  rw [nameFreeLine_eq, nameFreeLine_eq, h.1, h.2.1, h.2.2]

theorem lines_of_triples (l1 l2 : List HashEntry) (h : l1.map triple = l2.map triple) :
    l1.map nameFreeLine = l2.map nameFreeLine := by
  apply map_eq_of_key_eq triple nameFreeLine l1 l2 h
  intro x _ y _ hxy
  exact nameFreeLine_of_triple x y hxy

/-! ## The running sum of sizes -/

theorem wrapInt64_add (a b : Int) : wrapInt64 (wrapInt64 a + b) = wrapInt64 (a + b) := by
  unfold wrapInt64
  omega

theorem addSizes_wrap (es : List HashEntry) :
    ∀ s : Int, addSizes (wrapInt64 s) es = wrapInt64 (s + (es.map HashEntry.Size).sum) := by
  induction es with
  | nil => intro s; simp [addSizes]
  | cons e rest ih =>
    intro s
    rw [addSizes_cons, wrapInt64_add, ih]
    simp [add_assoc]

theorem addSizes_zero (es : List HashEntry) :
    addSizes 0 es = wrapInt64 ((es.map HashEntry.Size).sum) := by
  have h0 : wrapInt64 0 = 0 := by decide
  have := addSizes_wrap es 0
  rw [h0] at this
  simpa using this

theorem addSizes_of_triples (l1 l2 : List HashEntry)
    (h : (l1.map triple).Perm (l2.map triple)) : addSizes 0 l1 = addSizes 0 l2 := by
  rw [addSizes_zero, addSizes_zero]
  have := (h.map (fun t : EntryType × Str × Int => t.2.2)).sum_eq
  simp only [List.map_map] at this
  exact congrArg wrapInt64 this

/-- The digest and size of a directory depend only on the collection of triples of its
children, as long as children with equal digests have equal triples. -/
theorem dirEntry_of_triples (env : Env) (hsort : SortSpec env.sort) (p q : Str)
    (l1 l2 : List HashEntry) (h : (l1.map triple).Perm (l2.map triple))
    (htie : ∀ a ∈ l1, ∀ b ∈ l1, a.Hash = b.Hash → triple a = triple b) :
    triple (dirEntry env p l1) = triple (dirEntry env q l2) := by
  have hp : ((env.sort l1).map triple).Perm ((env.sort l2).map triple) :=
    (((hsort l1).1.map triple).trans h).trans ((hsort l2).1.map triple).symm
  have htie' : ∀ a ∈ env.sort l1, ∀ b ∈ env.sort l1, a.Hash = b.Hash → triple a = triple b :=
    fun a ha b hb => htie a ((hsort l1).1.subset ha) b ((hsort l1).1.subset hb)
  have ht := sorted_triples_unique _ _ hp (hsort l1).2 (hsort l2).2 htie'
  have hl := lines_of_triples _ _ ht
  simp only [triple, dirEntry, HashEntry.Typ, HashEntry.Hash, HashEntry.Size]
  rw [hl, addSizes_of_triples l1 l2 h]

/-! ## Reordering a listing -/

theorem childEntries_perm (env : Env) (filename : Str) (l1 l2 : List FsNode)
    (hperm : l1.Perm l2) :
    ∀ es, childEntries env filename l1 = .ok es →
      ∃ es', childEntries env filename l2 = .ok es' ∧ es.Perm es' := by
  induction hperm with
  | nil => intro es h; exact ⟨es, h, List.Perm.refl _⟩
  | cons x _ ih =>
    intro es h
    by_cases hn : x.name = FHASH_FILENAME
    · rw [childEntries_cons_skip _ _ _ _ hn] at h ⊢
      exact ih es h
    · obtain ⟨e, tl, h1, h2, h3⟩ := (childEntries_cons_ok _ _ _ _ hn es).mp h
      obtain ⟨tl', h4, h5⟩ := ih tl h2
      exact ⟨e :: tl', (childEntries_cons_ok _ _ _ _ hn _).mpr ⟨e, tl', h1, h4, rfl⟩,
        by rw [h3]; exact List.Perm.cons e h5⟩
  | swap x y l =>
    intro es h
    by_cases hx : x.name = FHASH_FILENAME
    · by_cases hy : y.name = FHASH_FILENAME
      · rw [childEntries_cons_skip _ _ _ _ hy, childEntries_cons_skip _ _ _ _ hx] at h
        rw [childEntries_cons_skip _ _ _ _ hx, childEntries_cons_skip _ _ _ _ hy]
        exact ⟨es, h, List.Perm.refl _⟩
      · obtain ⟨e, tl, h1, h2, h3⟩ := (childEntries_cons_ok _ _ _ _ hy es).mp h
        rw [childEntries_cons_skip _ _ _ _ hx] at h2
        rw [childEntries_cons_skip _ _ _ _ hx]
        exact ⟨es, (childEntries_cons_ok _ _ _ _ hy _).mpr ⟨e, tl, h1, h2, h3⟩,
          List.Perm.refl _⟩
    · by_cases hy : y.name = FHASH_FILENAME
      · rw [childEntries_cons_skip _ _ _ _ hy] at h
        obtain ⟨e, tl, h1, h2, h3⟩ := (childEntries_cons_ok _ _ _ _ hx es).mp h
        refine ⟨es, (childEntries_cons_ok _ _ _ _ hx _).mpr ⟨e, tl, h1, ?_, h3⟩,
          List.Perm.refl _⟩
        rw [childEntries_cons_skip _ _ _ _ hy]
        exact h2
      · obtain ⟨ey, tl, h1, h2, h3⟩ := (childEntries_cons_ok _ _ _ _ hy es).mp h
        obtain ⟨ex, tl2, h4, h5, h6⟩ := (childEntries_cons_ok _ _ _ _ hx tl).mp h2
        refine ⟨ex :: ey :: tl2, ?_, ?_⟩
        · exact (childEntries_cons_ok _ _ _ _ hx _).mpr ⟨ex, ey :: tl2, h4,
            (childEntries_cons_ok _ _ _ _ hy _).mpr ⟨ey, tl2, h1, h5, rfl⟩, rfl⟩
        · rw [h3, h6]
          exact List.Perm.swap ex ey tl2
  | trans _ _ ih1 ih2 =>
    intro es h
    obtain ⟨es2, h1, h2⟩ := ih1 es h
    obtain ⟨es3, h3, h4⟩ := ih2 es2 h1
    exact ⟨es3, h3, h2.trans h4⟩

theorem hashDirectory_dir_ok (env : Env) (filename name : Str) (files : List FsNode)
    (e : HashEntry) (h : hashDirectory env filename (.dir name none files) = .ok e) :
    ∃ es, childEntries env filename files = .ok es ∧ e = dirEntry env filename es := by
  obtain ⟨name', files', es, hnode, hce, he⟩ := hashDirectory_ok env filename _ e h
  simp only [FsNode.dir.injEq] at hnode
  obtain ⟨_, _, hf⟩ := hnode
  subst hf
  exact ⟨es, hce, he⟩

theorem hashDirectory_dir_of (env : Env) (filename name : Str) (files : List FsNode)
    (es : List HashEntry) (h : childEntries env filename files = .ok es) :
    hashDirectory env filename (.dir name none files) = .ok (dirEntry env filename es) := by
  rw [hashDirectory_dir, h]

/-! ## Reordering at every depth -/

theorem tieFreeAll_mem (fs : List HashEntry) (h : tieFreeAll fs = true) :
    ∀ c ∈ fs, tieFree c = true := by
  induction fs with
  | nil => intro c hc; simp at hc
  | cons e es ih =>
    intro c hc
    simp only [tieFreeAll, Bool.and_eq_true] at h
    rcases List.mem_cons.mp hc with rfl | hc
    · exact h.1
    · exact ih h.2 c hc

theorem tieFree_spec (e : HashEntry) (h : tieFree e = true) :
    (∀ a ∈ e.Files, ∀ b ∈ e.Files, a.Hash = b.Hash → triple a = triple b) ∧
    (∀ c ∈ e.Files, tieFree c = true) := by
  cases e with
  | mk t hh s n fs =>
    simp only [tieFree, Bool.and_eq_true] at h
    refine ⟨?_, tieFreeAll_mem fs h.2⟩
    intro a ha b hb
    have := h.1
    simp only [tiesAgree, List.all_eq_true, decide_eq_true_eq] at this
    exact this a ha b hb

theorem hashChild_dir_ok (env : Env) (p n : Str) (readErr : Option IOError)
    (ch : List FsNode) (e : HashEntry)
    (h : hashChild env p (.dir n readErr ch) = .ok e) :
    readErr = none ∧ ∃ cs, childEntries env (env.join p n) ch = .ok cs ∧
      e = dirEntry env (env.join p n) cs := by
  have h' : hashDirectory env (env.join p n) (.dir n readErr ch) = .ok e := h
  obtain ⟨name, files, es, hnode, hce, he⟩ := hashDirectory_ok env _ _ e h'
  simp only [FsNode.dir.injEq] at hnode
  obtain ⟨_, hre, hf⟩ := hnode
  subst hf
  exact ⟨hre, es, hce, he⟩

theorem hashChild_dir_of (env : Env) (p n : Str) (ch : List FsNode) (cs : List HashEntry)
    (h : childEntries env (env.join p n) ch = .ok cs) :
    hashChild env p (.dir n none ch) = .ok (dirEntry env (env.join p n) cs) :=
  hashDirectory_dir_of env (env.join p n) n ch cs h

theorem childEntries_reordered (env : Env) (hsort : SortSpec env.sort) (l1 l2 : List FsNode)
    (hre : Reordered l1 l2) :
    ∀ (p : Str) (es1 : List HashEntry), childEntries env p l1 = .ok es1 →
      (∀ c ∈ es1, tieFree c = true) →
      ∃ es2, childEntries env p l2 = .ok es2 ∧ (es1.map triple).Perm (es2.map triple) := by
  induction hre with
  | nil => intro p es1 h _; exact ⟨es1, h, List.Perm.refl _⟩
  | file n st l1 l2 _ ih =>
    intro p es1 h htf
    by_cases hn : (FsNode.file n st).name = FHASH_FILENAME
    · rw [childEntries_cons_skip _ _ _ _ hn] at h ⊢
      exact ih p es1 h htf
    · obtain ⟨e, tl, h1, h2, h3⟩ := (childEntries_cons_ok _ _ _ _ hn es1).mp h
      subst h3
      obtain ⟨tl2, h4, h5⟩ := ih p tl h2 (fun c hc => htf c (List.mem_cons_of_mem _ hc))
      exact ⟨e :: tl2, (childEntries_cons_ok _ _ _ _ hn _).mpr ⟨e, tl2, h1, h4, rfl⟩,
        List.Perm.cons _ h5⟩
  | dir n readErr ch1 ch2 l1 l2 _ _ ihc ihl =>
    intro p es1 h htf
    by_cases hn : (FsNode.dir n readErr ch1).name = FHASH_FILENAME
    · have hn2 : (FsNode.dir n readErr ch2).name = FHASH_FILENAME := hn
      rw [childEntries_cons_skip _ _ _ _ hn] at h
      rw [childEntries_cons_skip _ _ _ _ hn2]
      exact ihl p es1 h htf
    · have hn2 : (FsNode.dir n readErr ch2).name ≠ FHASH_FILENAME := hn
      obtain ⟨e, tl, h1, h2, h3⟩ := (childEntries_cons_ok _ _ _ _ hn es1).mp h
      subst h3
      obtain ⟨hre, cs1, hcs1, he⟩ := hashChild_dir_ok env p n readErr ch1 e h1
      subst hre
      have hte := tieFree_spec e (htf e (List.mem_cons_self _ _))
      have hfiles : e.Files = env.sort cs1 := by rw [he]; rfl
      rw [hfiles] at hte
      have hmem : ∀ c, c ∈ cs1 → c ∈ env.sort cs1 := fun c hc => (hsort cs1).1.symm.subset hc
      obtain ⟨cs2, hcs2, hpc⟩ := ihc (env.join p n) cs1 hcs1 (fun c hc => hte.2 c (hmem c hc))
      obtain ⟨tl2, h4, h5⟩ := ihl p tl h2 (fun c hc => htf c (List.mem_cons_of_mem _ hc))
      have ht : triple e = triple (dirEntry env (env.join p n) cs2) := by
        rw [he]
        exact dirEntry_of_triples env hsort _ _ cs1 cs2 hpc
          (fun a ha b hb => hte.1 a (hmem a ha) b (hmem b hb))
      refine ⟨dirEntry env (env.join p n) cs2 :: tl2,
        (childEntries_cons_ok _ _ _ _ hn2 _).mpr
          ⟨_, tl2, hashChild_dir_of env p n ch2 cs2 hcs2, h4, rfl⟩, ?_⟩
      simp only [List.map_cons]
      rw [ht]
      exact List.Perm.cons _ h5
  | perm l1 l1' l2 hp _ ih =>
    intro p es1 h htf
    obtain ⟨es1', h1, h2⟩ := childEntries_perm env p l1 l1' hp es1 h
    obtain ⟨es2, h3, h4⟩ := ih p es1' h1 (fun c hc => htf c (h2.symm.subset hc))
    exact ⟨es2, h3, (h2.map triple).trans h4⟩

/-! ## Names and paths do not reach the digest -/

theorem fsList_induction (P : List FsNode → Prop) (hnil : P [])
    (hfile : ∀ n st l, P l → P (.file n st :: l))
    (hdir : ∀ n readErr ch l, P ch → P l → P (.dir n readErr ch :: l)) : ∀ l, P l
  | [] => hnil
  | .file n st :: l => hfile n st l (fsList_induction P hnil hfile hdir l)
  | .dir n readErr ch :: l =>
    hdir n readErr ch l (fsList_induction P hnil hfile hdir ch)
      (fsList_induction P hnil hfile hdir l)

theorem SameContents_refl : ∀ l, SameContents l l :=
  fsList_induction (fun l => SameContents l l) SameContents.nil
    (fun n st l h => SameContents.file n n st l l Iff.rfl h)
    (fun n readErr ch l h1 h2 => SameContents.dir n n readErr ch ch l l Iff.rfl h1 h2)

theorem SameContents_append (a a' b b' : List FsNode) (h1 : SameContents a a')
    (h2 : SameContents b b') : SameContents (a ++ b) (a' ++ b') := by
  induction h1 with
  | nil => exact h2
  | file n n' st l l' hn _ ih => exact SameContents.file n n' st _ _ hn ih
  | dir n n' readErr ch ch' l l' hn hc _ _ ih =>
    exact SameContents.dir n n' readErr ch ch' _ _ hn hc ih

theorem Renamed_same (t t' : FsNode) (h : Renamed t t') : SameContents [t] [t'] := by
  induction h with
  | file n n' st h1 h2 =>
    exact SameContents.file n n' st [] [] ⟨fun h => absurd h h1, fun h => absurd h h2⟩
      SameContents.nil
  | dir n n' readErr ch h1 h2 =>
    exact SameContents.dir n n' readErr ch ch [] []
      ⟨fun h => absurd h h1, fun h => absurd h h2⟩ (SameContents_refl ch) SameContents.nil
  | inside n readErr pre post x x' _ ih =>
    refine SameContents.dir n n readErr _ _ [] [] Iff.rfl ?_ SameContents.nil
    exact SameContents_append pre pre (x :: post) (x' :: post) (SameContents_refl pre)
      (SameContents_append [x] [x'] post post ih (SameContents_refl post))

theorem forall2_triple_map (l l' : List HashEntry)
    (h : List.Forall₂ (fun a b => triple a = triple b) l l') :
    l.map triple = l'.map triple := by
  induction h with
  | nil => rfl
  | cons hab _ ih => simp only [List.map_cons, hab, ih]

/-- The digest and size of a directory are the same for two children sequences that agree
position by position on kind, digest and size. -/
theorem dirEntry_of_forall2 (env : Env) (hobl : SortOblivious env.sort) (q q' : Str)
    (cs cs' : List HashEntry)
    (h : List.Forall₂ (fun a b => triple a = triple b) cs cs') :
    triple (dirEntry env q cs) = triple (dirEntry env q' cs') := by
  have hs := hobl (fun a b => triple a = triple b)
    (fun a b hab => by rw [← triple_hash a, hab]; rfl) cs cs' h
  have hl := lines_of_triples _ _ (forall2_triple_map _ _ hs)
  have hz := addSizes_of_triples cs cs' (by rw [forall2_triple_map _ _ h])
  simp only [triple, dirEntry, HashEntry.Typ, HashEntry.Hash, HashEntry.Size]
  rw [hl, hz]

theorem childEntries_agree (env : Env) (l l' : List FsNode)
    (h : List.Forall₂ (NodeAgree env) l l') :
    ∀ (p p' : Str) (es : List HashEntry), childEntries env p l = .ok es →
      ∃ es', childEntries env p' l' = .ok es' ∧
        List.Forall₂ (fun a b => triple a = triple b) es es' := by
  induction h with
  | nil => intro p p' es h; exact ⟨es, h, by
      simp only [childEntries, Except.ok.injEq] at h
      subst h
      exact List.Forall₂.nil⟩
  | @cons x x' l l' hxy _ ih =>
    intro p p' es h
    by_cases hn : x.name = FHASH_FILENAME
    · rw [childEntries_cons_skip _ _ _ _ hn] at h
      rw [childEntries_cons_skip _ _ _ _ (hxy.1.mp hn)]
      exact ih p p' es h
    · have hn' : x'.name ≠ FHASH_FILENAME := fun hc => hn (hxy.1.mpr hc)
      obtain ⟨e, tl, h1, h2, h3⟩ := (childEntries_cons_ok _ _ _ _ hn es).mp h
      obtain ⟨e', h4, h5⟩ := hxy.2 (env.join p x.name) (env.join p' x'.name) e h1
      obtain ⟨tl', h6, h7⟩ := ih p p' tl h2
      refine ⟨e' :: tl', (childEntries_cons_ok _ _ _ _ hn' _).mpr ⟨e', tl', h4, h6, rfl⟩, ?_⟩
      rw [h3]
      exact List.Forall₂.cons h5 h7

theorem SameContents_agree (env : Env) (hobl : SortOblivious env.sort) (l l' : List FsNode)
    (h : SameContents l l') : List.Forall₂ (NodeAgree env) l l' := by
  induction h with
  | nil => exact List.Forall₂.nil
  | file n n' st l l' hn _ ih =>
    refine List.Forall₂.cons ⟨hn, ?_⟩ ih
    intro q q' e he
    have he' : hashFile env q (.file n st) = .ok e := he
    obtain ⟨n0, c, hx, hev⟩ := hashFile_ok env q _ e he'
    simp only [FsNode.file.injEq] at hx
    obtain ⟨_, hst⟩ := hx
    subst hst
    refine ⟨HashEntry.mk FILE (env.hash c) (Int.ofNat c.length) q' [], ?_, by rw [hev]; rfl⟩
    simp [hashNode, FsNode.isDir, hashFile]
  | dir n n' readErr ch ch' l l' hn _ _ ihc ihl =>
    refine List.Forall₂.cons ⟨hn, ?_⟩ ihl
    intro q q' e he
    have he' : hashDirectory env q (.dir n readErr ch) = .ok e := he
    obtain ⟨name, files, es, hnode, hce, hev⟩ := hashDirectory_ok env q _ e he'
    simp only [FsNode.dir.injEq] at hnode
    obtain ⟨_, hre, hf⟩ := hnode
    subst hf
    subst hre
    obtain ⟨es', h1, h2⟩ := childEntries_agree env ch ch' ihc q q' es hce
    refine ⟨dirEntry env q' es', hashDirectory_dir_of env q' n' ch' es' h1, ?_⟩
    rw [hev]
    exact dirEntry_of_forall2 env hobl q q' es es' h2

/-! ## Insertion sort reads only the digests -/

theorem bubbleLeft_rel (R : HashEntry → HashEntry → Prop)
    (hR : ∀ a b, R a b → a.Hash = b.Hash) (x x' : HashEntry) (hx : R x x')
    (acc acc' : List HashEntry) (h : List.Forall₂ R acc acc') :
    List.Forall₂ R (bubbleLeft x acc) (bubbleLeft x' acc') := by
  induction h with
  | nil => exact List.Forall₂.cons hx List.Forall₂.nil
  | @cons p p' ps ps' hp hps ih =>
    have hless : Less x p = Less x' p' := by
      simp only [Less, hR x x' hx, hR p p' hp]
    simp only [bubbleLeft, hless]
    by_cases hc : Less x' p' = true
    · simp only [hc, if_true]
      exact List.Forall₂.cons hp ih
    · simp only [hc]
      exact List.Forall₂.cons hx (List.Forall₂.cons hp hps)

theorem insertionLoop_rel (R : HashEntry → HashEntry → Prop)
    (hR : ∀ a b, R a b → a.Hash = b.Hash) (l l' : List HashEntry)
    (h : List.Forall₂ R l l') :
    ∀ acc acc', List.Forall₂ R acc acc' →
      List.Forall₂ R (insertionLoop l acc) (insertionLoop l' acc') := by
  induction h with
  | nil =>
    intro acc acc' ha
    simp only [insertionLoop]
    exact List.forall₂_reverse_iff.mpr ha
  | cons hx _ ih =>
    intro acc acc' ha
    simp only [insertionLoop]
    exact ih _ _ (bubbleLeft_rel R hR _ _ hx acc acc' ha)

theorem GoInsertionSort_oblivious : SortOblivious GoInsertionSort := by
  intro R hR l l' h
  exact insertionLoop_rel R hR l l' h [] [] List.Forall₂.nil

/-! ## The lines of a directory can be read back -/

theorem split_at_delim (d : Byte) : ∀ (a a' x x' : Str), (∀ c ∈ a, c ≠ d) →
    (∀ c ∈ a', c ≠ d) → a ++ d :: x = a' ++ d :: x' → a = a' ∧ x = x' := by
  intro a
  induction a with
  | nil =>
    intro a' x x' _ h2 h
    cases a' with
    | nil => simpa using h
    | cons b bs =>
      simp only [List.nil_append, List.cons_append, List.cons.injEq] at h
      exact absurd h.1.symm (h2 b (by simp))
  | cons b bs ih =>
    intro a' x x' h1 h2 h
    cases a' with
    | nil =>
      simp only [List.nil_append, List.cons_append, List.cons.injEq] at h
      exact absurd h.1 (h1 b (by simp))
    | cons b' bs' =>
      simp only [List.cons_append, List.cons.injEq] at h
      obtain ⟨r1, r2⟩ := ih bs' x x' (fun c hc => h1 c (List.mem_cons_of_mem _ hc))
        (fun c hc => h2 c (List.mem_cons_of_mem _ hc)) h.2
      exact ⟨by rw [h.1, r1], r2⟩

set_option maxRecDepth 100000 in
theorem hex_ne_colon (h : Str) : ∀ c ∈ hexEncode h, c ≠ (58 : Byte) := by
  have key : ∀ c ∈ ascii "0123456789abcdef", c ≠ (58 : Byte) := by decide
  exact fun c hc => key c (hexEncode_mem h c hc)

theorem fmtNat_ne_nl (n : Nat) : ∀ c ∈ fmtNat n, c ≠ NL := by
  intro c hc hcn
  have := (fmtNat_spec n).2.2 c hc
  have h10 : (NL : Byte).val = 10 := rfl
  rw [hcn, h10] at this
  omega

theorem fmtInt_ne_nl (s : Int) : ∀ c ∈ fmtInt s, c ≠ NL := by
  intro c hc
  unfold fmtInt at hc
  by_cases hs : s < 0
  · simp only [hs, if_true, List.mem_cons] at hc
    rcases hc with rfl | hc
    · decide
    · exact fmtNat_ne_nl _ c hc
  · simp only [hs, if_false] at hc
    exact fmtNat_ne_nl _ c hc

theorem fmtNat_injective (m n : Nat) (h : fmtNat m = fmtNat n) : m = n := by
  rw [← (fmtNat_spec m).1, ← (fmtNat_spec n).1, h]

theorem fmtNat_head (n : Nat) : ∃ c rest, fmtNat n = c :: rest ∧ 48 ≤ c.val := by
  obtain ⟨_, h2, h3⟩ := fmtNat_spec n
  cases hf : fmtNat n with
  | nil => exact absurd hf h2
  | cons c rest => exact ⟨c, rest, rfl, (h3 c (by rw [hf]; simp)).1⟩

theorem fmtInt_injective (s s' : Int) (h : fmtInt s = fmtInt s') : s = s' := by
  unfold fmtInt at h
  have hminus : ((Fin.ofNat 45 : Byte)).val = 45 := rfl
  by_cases hs : s < 0
  · by_cases hs' : s' < 0
    · simp only [hs, hs', if_true, List.cons.injEq, true_and] at h
      have := fmtNat_injective _ _ h
      omega
    · simp only [hs, hs', if_true, if_false] at h
      obtain ⟨c, rest, hc, hv⟩ := fmtNat_head s'.toNat
      rw [hc, List.cons.injEq] at h
      rw [← h.1, hminus] at hv
      omega
  · by_cases hs' : s' < 0
    · simp only [hs, hs', if_true, if_false] at h
      obtain ⟨c, rest, hc, hv⟩ := fmtNat_head s.toNat
      rw [hc, List.cons.injEq] at h
      rw [h.1, hminus] at hv
      omega
    · simp only [hs, hs', if_false] at h
      have := fmtNat_injective _ _ h
      omega

theorem nameFreeLine_cons (e : HashEntry) (hk : e.Typ = FILE ∨ e.Typ = DIR) (r : Str) :
    nameFreeLine e ++ r =
      e.Typ :: 32 :: (hexEncode e.Hash ++ 58 :: (fmtInt e.Size ++ NL :: r)) := by
  have h1 : ascii " " = [32] := by decide
  have h2 : ascii ":" = [58] := by decide
  have h3 : ascii "\n" = [NL] := by decide
  have h4 : fmtChar e.Typ = [e.Typ] := by
    rcases hk with h | h <;> rw [h] <;> decide
  rw [nameFreeLine_eq, h1, h2, h3, h4]
  simp

/-- A name-free line at the front of a byte sequence determines kind, digest and size, and
the rest of the sequence. -/
theorem nameFreeLine_unique (a b : HashEntry) (ha : a.Typ = FILE ∨ a.Typ = DIR)
    (hb : b.Typ = FILE ∨ b.Typ = DIR) (r r' : Str)
    (h : nameFreeLine a ++ r = nameFreeLine b ++ r') : triple a = triple b ∧ r = r' := by
  rw [nameFreeLine_cons a ha, nameFreeLine_cons b hb] at h
  simp only [List.cons.injEq, true_and] at h
  obtain ⟨ht, hrest⟩ := h
  obtain ⟨hh, hrest2⟩ := split_at_delim 58 _ _ _ _ (hex_ne_colon _) (hex_ne_colon _) hrest
  obtain ⟨hs, hr⟩ := split_at_delim NL _ _ _ _ (fmtInt_ne_nl _) (fmtInt_ne_nl _) hrest2
  refine ⟨?_, hr⟩
  simp only [triple, Prod.mk.injEq]
  exact ⟨ht, hexEncode_injective _ _ hh, fmtInt_injective _ _ hs⟩

theorem nameFreeLine_ne_nil (e : HashEntry) : nameFreeLine e ≠ [] := by
  rw [nameFreeLine_eq]
  have h3 : ascii "\n" = [NL] := by decide
  rw [h3]
  simp

/-- The concatenated name-free lines of a children sequence determine the sequence of
triples. -/
theorem lines_unique : ∀ (l1 l2 : List HashEntry),
    (∀ c ∈ l1, c.Typ = FILE ∨ c.Typ = DIR) → (∀ c ∈ l2, c.Typ = FILE ∨ c.Typ = DIR) →
    concatStr (l1.map nameFreeLine) = concatStr (l2.map nameFreeLine) →
    l1.map triple = l2.map triple := by
  intro l1
  induction l1 with
  | nil =>
    intro l2 _ _ h
    cases l2 with
    | nil => rfl
    | cons y ys =>
      simp only [List.map_nil, concatStr, List.map_cons] at h
      have := nameFreeLine_ne_nil y
      have h' := h.symm
      simp only [List.append_eq_nil] at h'
      exact absurd h'.1 this
  | cons x xs ih =>
    intro l2 h1 h2 h
    cases l2 with
    | nil =>
      simp only [List.map_nil, concatStr, List.map_cons, List.append_eq_nil] at h
      exact absurd h.1 (nameFreeLine_ne_nil x)
    | cons y ys =>
      simp only [List.map_cons, concatStr] at h
      obtain ⟨ht, hr⟩ := nameFreeLine_unique x y (h1 x (by simp)) (h2 y (by simp)) _ _ h
      simp only [List.map_cons, ht, List.cons.injEq, true_and]
      exact ih ys (fun c hc => h1 c (List.mem_cons_of_mem _ hc))
        (fun c hc => h2 c (List.mem_cons_of_mem _ hc)) hr

/-! ## Content sensitivity -/

theorem childEntries_append (env : Env) (p : Str) (a b : List FsNode) (es : List HashEntry) :
    childEntries env p (a ++ b) = .ok es ↔
      ∃ ea eb, childEntries env p a = .ok ea ∧ childEntries env p b = .ok eb ∧
        es = ea ++ eb := by
  induction a generalizing es with
  | nil =>
    simp only [List.nil_append, childEntries, Except.ok.injEq]
    constructor
    · intro h; exact ⟨[], es, rfl, h, rfl⟩
    · rintro ⟨ea, eb, h1, h2, h3⟩; rw [h3, ← h1]; exact h2
  | cons x rest ih =>
    by_cases hn : x.name = FHASH_FILENAME
    · rw [List.cons_append, childEntries_cons_skip _ _ _ _ hn,
        childEntries_cons_skip _ _ _ _ hn]
      exact ih es
    · rw [List.cons_append, childEntries_cons_ok _ _ _ _ hn]
      constructor
      · rintro ⟨e, tl, h1, h2, h3⟩
        obtain ⟨ea, eb, h4, h5, h6⟩ := (ih tl).mp h2
        exact ⟨e :: ea, eb, (childEntries_cons_ok _ _ _ _ hn _).mpr ⟨e, ea, h1, h4, rfl⟩, h5,
          by rw [h3, h6]; rfl⟩
      · rintro ⟨ea, eb, h1, h2, h3⟩
        obtain ⟨e, tl, h4, h5, h6⟩ := (childEntries_cons_ok _ _ _ _ hn _).mp h1
        exact ⟨e, tl ++ eb, h4, (ih _).mpr ⟨tl, eb, h5, h2, rfl⟩, by rw [h3, h6]; rfl⟩

theorem childEntries_kinds (env : Env) (p : Str) (files : List FsNode) (es : List HashEntry)
    (h : childEntries env p files = .ok es) : ∀ c ∈ es, c.Typ = FILE ∨ c.Typ = DIR := by
  intro c hc
  obtain ⟨x, _, _, hx⟩ := childEntries_mem env p files es h c hc
  rcases hashChild_cases env p x c hx with ⟨_, hd⟩ | ⟨_, hf⟩
  · obtain ⟨_, _, es', _, _, he⟩ := hashDirectory_ok env _ x c hd
    exact Or.inr (by rw [he]; rfl)
  · obtain ⟨_, _, _, he⟩ := hashFile_ok env _ x c hf
    exact Or.inl (by rw [he]; rfl)

theorem perm_cons_cancel {α : Type} (a b : α) (l1 l2 : List α) (hl : l1.Perm l2)
    (h : (a :: l1).Perm (b :: l2)) : a = b := by
  have h' : (a :: l1).Perm (b :: l1) := h.trans (List.Perm.cons b hl.symm)
  have hm : (a ::ₘ (l1 : Multiset α)) = b ::ₘ (l1 : Multiset α) := by
    rw [Multiset.cons_coe, Multiset.cons_coe]
    exact Multiset.coe_eq_coe.mpr h'
  exact (Multiset.cons_inj_left _).mp hm

/-- With a collision-free hash, replacing one child entry by one with another digest
changes the digest of the directory. -/
theorem dirEntry_sensitive (env : Env) (hinj : Function.Injective env.hash)
    (hsort : SortSpec env.sort) (q : Str) (ea eb : List HashEntry) (x x' : HashEntry)
    (hk : ∀ c ∈ ea ++ x :: eb, c.Typ = FILE ∨ c.Typ = DIR)
    (hk' : ∀ c ∈ ea ++ x' :: eb, c.Typ = FILE ∨ c.Typ = DIR)
    (hx : x'.Hash ≠ x.Hash) :
    (dirEntry env q (ea ++ x' :: eb)).Hash ≠ (dirEntry env q (ea ++ x :: eb)).Hash := by
  intro heq
  simp only [dirEntry, HashEntry.Hash] at heq
  have hlines := hinj heq
  have hp := (hsort (ea ++ x :: eb)).1
  have hp' := (hsort (ea ++ x' :: eb)).1
  have ht := lines_unique _ _ (fun c hc => hk' c (hp'.subset hc))
    (fun c hc => hk c (hp.subset hc)) hlines
  have h1 : ((ea ++ x' :: eb).map triple).Perm ((ea ++ x :: eb).map triple) := by
    have hmid : ((env.sort (ea ++ x' :: eb)).map triple).Perm
        ((env.sort (ea ++ x :: eb)).map triple) := by rw [ht]
    exact ((hp'.map triple).symm.trans hmid).trans (hp.map triple)
  have h2 : (triple x' :: (ea ++ eb).map triple).Perm (triple x :: (ea ++ eb).map triple) := by
    have m1 : ((ea ++ x' :: eb).map triple).Perm (triple x' :: (ea ++ eb).map triple) :=
      (List.perm_middle.map triple)
    have m2 : ((ea ++ x :: eb).map triple).Perm (triple x :: (ea ++ eb).map triple) :=
      (List.perm_middle.map triple)
    exact (m1.symm.trans h1).trans m2
  have h3 := perm_cons_cancel _ _ _ _ (List.Perm.refl _) h2
  exact hx (by rw [← triple_hash x', h3]; rfl)

theorem Changed_name (t t' : FsNode) (h : Changed t t') :
    t.name = t'.name ∧ t.isDir = t'.isDir := by
  cases h <;> exact ⟨rfl, rfl⟩

theorem Changed_digest (env : Env) (hinj : Function.Injective env.hash)
    (hsort : SortSpec env.sort) (t t' : FsNode) (h : Changed t t') :
    ∀ (q : Str) (e : HashEntry), hashNode env q t = .ok e →
      ∃ e', hashNode env q t' = .ok e' ∧ e'.Hash ≠ e.Hash := by
  induction h with
  | file n c c' statErr openErr readErr hc =>
    intro q e he
    have he' : hashFile env q (.file n (FileState.mk c statErr openErr readErr)) = .ok e := he
    obtain ⟨n0, c0, hx, hev⟩ := hashFile_ok env q _ e he'
    simp only [FsNode.file.injEq, FileState.mk.injEq] at hx
    obtain ⟨_, hc0, h1, h2, h3⟩ := hx
    subst h1 h2 h3 hc0
    refine ⟨HashEntry.mk FILE (env.hash c') (Int.ofNat c'.length) q [], ?_, ?_⟩
    · simp [hashNode, FsNode.isDir, hashFile]
    · rw [hev]
      simp only [HashEntry.Hash]
      exact fun hh => hc (hinj hh).symm
  | inside n readErr pre post x x' hn hch ih =>
    intro q e he
    have he' : hashDirectory env q (.dir n readErr (pre ++ x :: post)) = .ok e := he
    obtain ⟨name, files, es, hnode, hce, hev⟩ := hashDirectory_ok env q _ e he'
    simp only [FsNode.dir.injEq] at hnode
    obtain ⟨_, hre, hf⟩ := hnode
    subst hf
    subst hre
    obtain ⟨ea, eb0, h1, h2, h3⟩ := (childEntries_append env q pre (x :: post) es).mp hce
    obtain ⟨ex, eb, h4, h5, h6⟩ := (childEntries_cons_ok env q x post hn eb0).mp h2
    obtain ⟨ex', h7, h8⟩ := ih (env.join q x.name) ex h4
    have hn' : x'.name ≠ FHASH_FILENAME := by rw [← (Changed_name x x' hch).1]; exact hn
    have h7' : hashChild env q x' = .ok ex' := by
      unfold hashChild
      rw [← (Changed_name x x' hch).1]
      exact h7
    have hce' : childEntries env q (pre ++ x' :: post) = .ok (ea ++ ex' :: eb) :=
      (childEntries_append env q pre (x' :: post) _).mpr
        ⟨ea, ex' :: eb, h1, (childEntries_cons_ok env q x' post hn' _).mpr
          ⟨ex', eb, h7', h5, rfl⟩, rfl⟩
    refine ⟨dirEntry env q (ea ++ ex' :: eb), hashDirectory_dir_of env q n _ _ hce', ?_⟩
    rw [hev, h3, h6]
    exact dirEntry_sensitive env hinj hsort q ea eb ex ex'
      (by rw [← h6, ← h3]; exact childEntries_kinds env q _ es hce)
      (childEntries_kinds env q _ _ hce') h8

/-! ## The order on hexadecimal text is the order on the bytes -/

theorem hexDigit_lt : ∀ m, m < 16 → ∀ n, n < 16 → (hexDigit m < hexDigit n ↔ m < n) := by
  decide

theorem strLess_hexEncode : ∀ a b : Str, strLess (hexEncode a) (hexEncode b) = strLess a b := by
  intro a
  induction a with
  | nil =>
    intro b
    cases b with
    | nil => rfl
    | cons y ys => simp [hexEncode, strLess]
  | cons x xs ih =>
    intro b
    cases b with
    | nil => simp [hexEncode, strLess]
    | cons y ys =>
      have hx := x.isLt
      have hy := y.isLt
      have h1 := hexDigit_lt (x.val / 16) (by omega) (y.val / 16) (by omega)
      have h1' := hexDigit_lt (y.val / 16) (by omega) (x.val / 16) (by omega)
      have h2 := hexDigit_lt (x.val % 16) (Nat.mod_lt _ (by decide)) (y.val % 16)
        (Nat.mod_lt _ (by decide))
      have h2' := hexDigit_lt (y.val % 16) (Nat.mod_lt _ (by decide)) (x.val % 16)
        (Nat.mod_lt _ (by decide))
      have hxy : x < y ↔ x.val < y.val := Fin.lt_def
      have hyx : y < x ↔ y.val < x.val := Fin.lt_def
      simp only [hexEncode, strLess, ih ys]
      by_cases c1 : x.val / 16 < y.val / 16
      · have : x < y := hxy.mpr (by omega)
        simp [h1.mpr c1, this]
      · by_cases c2 : y.val / 16 < x.val / 16
        · have hn : ¬ x < y := fun h => by have := hxy.mp h; omega
          have : y < x := hyx.mpr (by omega)
          simp [h1'.mpr c2, mt h1.mp c1, this, hn]
        · simp only [mt h1.mp c1, mt h1'.mp c2, if_false]
          by_cases c3 : x.val % 16 < y.val % 16
          · have : x < y := hxy.mpr (by omega)
            simp [h2.mpr c3, this]
          · by_cases c4 : y.val % 16 < x.val % 16
            · have hn : ¬ x < y := fun h => by have := hxy.mp h; omega
              have : y < x := hyx.mpr (by omega)
              simp [h2'.mpr c4, mt h2.mp c3, this, hn]
            · have hn : ¬ x < y := fun h => by have := hxy.mp h; omega
              have hn' : ¬ y < x := fun h => by have := hyx.mp h; omega
              simp [mt h2.mp c3, mt h2'.mp c4, hn, hn']

/-! ## Failures -/

theorem hashFile_error_iff (env : Env) (p n : Str) (st : FileState) :
    (∃ err, hashFile env p (.file n st) = .error err) ↔ nodeFails (.file n st) = true := by
  obtain ⟨c, se, oe, re⟩ := st
  cases se <;> cases oe <;> cases re <;> simp [hashFile, nodeFails]

theorem childEntries_error_cons (env : Env) (p : Str) (x : FsNode) (rest : List FsNode)
    (hn : x.name ≠ FHASH_FILENAME) :
    (∃ err, childEntries env p (x :: rest) = .error err) ↔
      ((∃ err, hashChild env p x = .error err) ∨
        (∃ err, childEntries env p rest = .error err)) := by
  simp only [childEntries, hn, if_false]
  cases hashChild env p x with
  | error err => simp
  | ok e =>
    cases childEntries env p rest with
    | error err => simp
    | ok tl => simp

theorem hashDirectory_error_iff (env : Env) (p n : Str) (readErr : Option IOError)
    (ch : List FsNode) :
    (∃ err, hashDirectory env p (.dir n readErr ch) = .error err) ↔
      (readErr.isSome = true ∨ ∃ err, childEntries env p ch = .error err) := by
  cases readErr with
  | some e => simp [hashDirectory]
  | none =>
    rw [hashDirectory_dir]
    cases childEntries env p ch with
    | error err => simp
    | ok es => simp

theorem childEntries_fails (env : Env) : ∀ (l : List FsNode) (p : Str),
    (∃ err, childEntries env p l = .error err) ↔ listFails l = true := by
  apply fsList_induction (fun l => ∀ p : Str,
    (∃ err, childEntries env p l = .error err) ↔ listFails l = true)
  · intro p
    simp [childEntries, listFails]
  · intro n st l ih p
    by_cases hn : (FsNode.file n st).name = FHASH_FILENAME
    · rw [childEntries_cons_skip _ _ _ _ hn, ih p]
      simp [listFails, hn]
    · rw [childEntries_error_cons _ _ _ _ hn, ih p]
      have hf : (∃ err, hashChild env p (.file n st) = .error err) ↔
          nodeFails (.file n st) = true := hashFile_error_iff env _ n st
      rw [hf]
      simp [listFails, hn]
  · intro n readErr ch l ihc ihl p
    by_cases hn : (FsNode.dir n readErr ch).name = FHASH_FILENAME
    · rw [childEntries_cons_skip _ _ _ _ hn, ihl p]
      simp [listFails, hn]
    · rw [childEntries_error_cons _ _ _ _ hn, ihl p]
      have hd : (∃ err, hashChild env p (.dir n readErr ch) = .error err) ↔
          nodeFails (.dir n readErr ch) = true := by
        have := hashDirectory_error_iff env (env.join p n) n readErr ch
        rw [ihc] at this
        simpa [nodeFails] using this
      rw [hd]
      simp [listFails, hn]

theorem hashDirectory_fails (env : Env) (p n : Str) (readErr : Option IOError)
    (ch : List FsNode) :
    (∃ err, hashDirectory env p (.dir n readErr ch) = .error err) ↔
      nodeFails (.dir n readErr ch) = true := by
  rw [hashDirectory_error_iff, childEntries_fails]
  simp [nodeFails]

theorem except_ok_or_error {α : Type} (r : Except IOError α) :
    (∃ e, r = .ok e) ↔ ¬ ∃ err, r = .error err := by
  cases r <;> simp

theorem sort_nil (env : Env) (hsort : SortSpec env.sort) : env.sort [] = [] :=
  List.Perm.eq_nil (hsort []).1

theorem tripleLine_eq (t : EntryType × Str × Int) :
    tripleLine t = nameFreeLine (HashEntry.mk t.1 t.2.1 t.2.2 [] []) := by
  rw [nameFreeLine, printHashEntry_flat]
  rfl

theorem tripleLines_unique (l1 l2 : List (EntryType × Str × Int))
    (h1 : ∀ t ∈ l1, t.1 = FILE ∨ t.1 = DIR) (h2 : ∀ t ∈ l2, t.1 = FILE ∨ t.1 = DIR)
    (h : concatStr (l1.map tripleLine) = concatStr (l2.map tripleLine)) : l1 = l2 := by
  have key := lines_unique
    (l1.map (fun t => HashEntry.mk t.1 t.2.1 t.2.2 [] []))
    (l2.map (fun t => HashEntry.mk t.1 t.2.1 t.2.2 [] []))
    (by
      intro c hc
      obtain ⟨t, ht, rfl⟩ := List.mem_map.mp hc
      exact h1 t ht)
    (by
      intro c hc
      obtain ⟨t, ht, rfl⟩ := List.mem_map.mp hc
      exact h2 t ht)
    (by
      simp only [List.map_map]
      have e : (nameFreeLine ∘ fun t : EntryType × Str × Int =>
          HashEntry.mk t.1 t.2.1 t.2.2 [] []) = tripleLine := by
        funext t
        exact (tripleLine_eq t).symm
      rw [e]
      exact h)
  simp only [List.map_map] at key
  have e : (triple ∘ fun t : EntryType × Str × Int =>
      HashEntry.mk t.1 t.2.1 t.2.2 [] []) = id := by
    funext t
    rfl
  rw [e] at key
  simpa using key

/-! ## Sizes -/

theorem nested_dir_entry (env : Env) (hsort : SortSpec env.sort) (d e : HashEntry)
    (hn : Nested d e) :
    ∀ (filename : Str) (node : FsNode), hashDirectory env filename node = .ok e →
      d.Typ = DIR →
      ∃ q name files es, Reaches env filename node q (.dir name none files) ∧
        childEntries env q files = .ok es ∧ d = dirEntry env q es := by
  induction hn with
  | self =>
    intro filename node h _
    obtain ⟨name, files, es, hnode, hce, he⟩ := hashDirectory_ok env filename node _ h
    subst hnode
    exact ⟨filename, name, files, es, Reaches.here _ _, hce, he⟩
  | inside c e hc hdc ih =>
    intro filename node h hd
    obtain ⟨name, files, es, hnode, hce, he⟩ := hashDirectory_ok env filename node e h
    subst hnode
    have hc' : c ∈ es := by
      rw [he] at hc
      exact (hsort es).1.subset hc
    obtain ⟨child, hmem, hname, hchild⟩ := childEntries_mem env filename files es hce c hc'
    rcases hashChild_cases env filename child c hchild with ⟨hdir, hh⟩ | ⟨_, hh⟩
    · obtain ⟨q, name', files', es', hr, h1, h2⟩ := ih _ _ hh hd
      exact ⟨q, name', files', es',
        Reaches.down filename q name none files child _ hmem hname hdir hr, h1, h2⟩
    · obtain ⟨n, content, _, hcfile⟩ := hashFile_ok env _ child c hh
      have := nested_leaf d c (by rw [hcfile]; rfl) hdc
      rw [this, hcfile] at hd
      simp only [HashEntry.Typ] at hd
      exact absurd hd (by decide)

theorem listBytes_mem (files : List FsNode) (x : FsNode) (hx : x ∈ files)
    (hn : x.name ≠ FHASH_FILENAME) : totalBytes x ≤ listBytes files := by
  induction files with
  | nil => simp at hx
  | cons y rest ih =>
    rcases List.mem_cons.mp hx with rfl | hx
    · simp only [listBytes, hn, if_false]
      omega
    · have := ih hx
      simp only [listBytes]
      omega

theorem Reaches_bytes (env : Env) (p q : Str) (x y : FsNode) (h : Reaches env p x q y) :
    totalBytes y ≤ totalBytes x := by
  induction h with
  | here => exact Nat.le_refl _
  | down p q name readErr files child y hmem hname _ _ ih =>
    have := listBytes_mem files child hmem hname
    simp only [totalBytes] at ih ⊢
    omega

theorem wrapInt64_small (n : Nat) (h : n < 2 ^ 63) : wrapInt64 (Int.ofNat n) = Int.ofNat n := by
  unfold wrapInt64
  have h' : (Int.ofNat n) < 2 ^ 63 := by
    have : ((n : Nat) : Int) < ((2 ^ 63 : Nat) : Int) := Int.ofNat_lt.mpr h
    simpa using this
  have h0 : (0 : Int) ≤ Int.ofNat n := Int.ofNat_nonneg n
  omega

theorem childEntries_sizes (env : Env) : ∀ (l : List FsNode) (p : Str) (es : List HashEntry),
    childEntries env p l = .ok es → listBytes l < 2 ^ 63 →
      (es.map HashEntry.Size).sum = Int.ofNat (listBytes l) := by
  apply fsList_induction (fun l => ∀ (p : Str) (es : List HashEntry),
    childEntries env p l = .ok es → listBytes l < 2 ^ 63 →
      (es.map HashEntry.Size).sum = Int.ofNat (listBytes l))
  · intro p es h _
    simp only [childEntries, Except.ok.injEq] at h
    subst h
    rfl
  · intro n st l ih p es h hb
    by_cases hn : (FsNode.file n st).name = FHASH_FILENAME
    · rw [childEntries_cons_skip _ _ _ _ hn] at h
      simp only [listBytes, hn, if_true, Nat.zero_add] at hb ⊢
      exact ih p es h hb
    · obtain ⟨e, tl, h1, h2, h3⟩ := (childEntries_cons_ok _ _ _ _ hn es).mp h
      have h1' : hashFile env (env.join p n) (.file n st) = .ok e := h1
      obtain ⟨n0, c, hx, hev⟩ := hashFile_ok env _ _ e h1'
      simp only [FsNode.file.injEq] at hx
      obtain ⟨_, hst⟩ := hx
      subst hst
      simp only [listBytes, hn, if_false, totalBytes] at hb ⊢
      have := ih p tl h2 (by omega)
      rw [h3, List.map_cons, List.sum_cons, this, hev]
      simp only [HashEntry.Size]
      simp
  · intro n readErr ch l ihc ihl p es h hb
    by_cases hn : (FsNode.dir n readErr ch).name = FHASH_FILENAME
    · rw [childEntries_cons_skip _ _ _ _ hn] at h
      simp only [listBytes, hn, if_true, Nat.zero_add] at hb ⊢
      exact ihl p es h hb
    · obtain ⟨e, tl, h1, h2, h3⟩ := (childEntries_cons_ok _ _ _ _ hn es).mp h
      obtain ⟨_, cs, hcs, he⟩ := hashChild_dir_ok env p n readErr ch e h1
      simp only [listBytes, hn, if_false, totalBytes] at hb ⊢
      have hc := ihc (env.join p n) cs hcs (by omega)
      have hl := ihl p tl h2 (by omega)
      have hsz : e.Size = Int.ofNat (listBytes ch) := by
        rw [he]
        simp only [dirEntry, HashEntry.Size]
        rw [addSizes_zero, hc]
        exact wrapInt64_small _ (by omega)
      rw [h3, List.map_cons, List.sum_cons, hl, hsz]
      simp

theorem dirEntry_size (env : Env) (hsort : SortSpec env.sort) (q : Str)
    (files : List FsNode) (es : List HashEntry) (h : childEntries env q files = .ok es)
    (hb : listBytes files < 2 ^ 63) :
    (dirEntry env q es).Size = Int.ofNat (listBytes files) ∧
    (dirEntry env q es).Size = ((dirEntry env q es).Files.map HashEntry.Size).sum := by
  have hs := childEntries_sizes env files q es h hb
  have h1 : (dirEntry env q es).Size = Int.ofNat (listBytes files) := by
    simp only [dirEntry, HashEntry.Size]
    rw [addSizes_zero, hs]
    exact wrapInt64_small _ hb
  refine ⟨h1, ?_⟩
  rw [h1, ← hs]
  exact (((hsort es).1.map HashEntry.Size).sum_eq).symm

/-! ## Which children get an entry, and of which kind -/

theorem childEntries_forall2 (env : Env) (p : Str) (l : List FsNode) :
    ∀ es, childEntries env p l = .ok es →
      List.Forall₂ (fun x c => hashChild env p x = .ok c) (l.filter isListed) es := by
  induction l with
  | nil =>
    intro es h
    simp only [childEntries, Except.ok.injEq] at h
    subst h
    exact List.Forall₂.nil
  | cons x rest ih =>
    intro es h
    by_cases hn : x.name = FHASH_FILENAME
    · rw [childEntries_cons_skip _ _ _ _ hn] at h
      have : isListed x = false := by simp [isListed, hn]
      rw [List.filter_cons_of_neg (by simp [this])]
      exact ih es h
    · obtain ⟨e, tl, h1, h2, h3⟩ := (childEntries_cons_ok _ _ _ _ hn es).mp h
      have : isListed x = true := by simp [isListed, hn]
      rw [List.filter_cons_of_pos this, h3]
      exact List.Forall₂.cons h1 (ih tl h2)

theorem childEntries_of_mem (env : Env) (p : Str) (l : List FsNode) (x : FsNode)
    (hx : x ∈ l) (hn : x.name ≠ FHASH_FILENAME) :
    ∀ es, childEntries env p l = .ok es → ∃ c ∈ es, hashChild env p x = .ok c := by
  induction l with
  | nil => simp at hx
  | cons y rest ih =>
    intro es h
    by_cases hy : y.name = FHASH_FILENAME
    · rw [childEntries_cons_skip _ _ _ _ hy] at h
      rcases List.mem_cons.mp hx with rfl | hx'
      · exact absurd hy hn
      · exact ih hx' es h
    · obtain ⟨e, tl, h1, h2, h3⟩ := (childEntries_cons_ok _ _ _ _ hy es).mp h
      rcases List.mem_cons.mp hx with rfl | hx'
      · exact ⟨e, by rw [h3]; exact List.mem_cons_self _ _, h1⟩
      · obtain ⟨c, hc, hcx⟩ := ih hx' tl h2
        exact ⟨c, by rw [h3]; exact List.mem_cons_of_mem _ hc, hcx⟩

theorem hashNode_kind (env : Env) (p : Str) (x : FsNode) (c : HashEntry)
    (h : hashNode env p x = .ok c) :
    (x.isDir = true ∧ c.Typ = DIR) ∨ (x.isDir = false ∧ c.Typ = FILE ∧ c.Files = []) := by
  unfold hashNode at h
  by_cases hd : x.isDir = true
  · simp only [hd, if_true] at h
    obtain ⟨_, _, es, _, _, he⟩ := hashDirectory_ok env p x c h
    exact Or.inl ⟨hd, by rw [he]; rfl⟩
  · simp only [hd] at h
    obtain ⟨_, _, _, he⟩ := hashFile_ok env p x c h
    exact Or.inr ⟨by simpa using hd, by rw [he]; rfl, by rw [he]; rfl⟩

theorem nested_kind (env : Env) (hsort : SortSpec env.sort) (d e : HashEntry)
    (hn : Nested d e) :
    ∀ (p : Str) (x : FsNode), hashNode env p x = .ok e →
      (d.Typ = FILE ∧ d.Files = []) ∨ d.Typ = DIR := by
  induction hn with
  | self =>
    intro p x h
    rcases hashNode_kind env p x _ h with ⟨_, h1⟩ | ⟨_, h1, h2⟩
    · exact Or.inr h1
    · exact Or.inl ⟨h1, h2⟩
  | inside c e hc _ ih =>
    intro p x h
    unfold hashNode at h
    by_cases hd : x.isDir = true
    · simp only [hd, if_true] at h
      obtain ⟨name, files, es, _, hce, he⟩ := hashDirectory_ok env p x e h
      have hc' : c ∈ es := by
        rw [he] at hc
        exact (hsort es).1.subset hc
      obtain ⟨child, _, _, hchild⟩ := childEntries_mem env p files es hce c hc'
      exact ih _ child hchild
    · simp only [hd] at h
      obtain ⟨_, _, _, he⟩ := hashFile_ok env p x e h
      rw [he] at hc
      simp [HashEntry.Files] at hc

/-! ## Names -/

theorem Base_plain (l : Str) (hne : l ≠ []) (hl : ∀ b ∈ l, b ≠ SEP) : Base l = l := by
  have hrev : l.reverse ≠ [] := by simpa using hne
  have hdrop : l.reverse.dropWhile (fun b => b == SEP) = l.reverse := by
    cases hr : l.reverse with
    | nil => exact absurd hr hrev
    | cons a rest =>
      have ha : a ∈ l := by
        have : a ∈ l.reverse := by rw [hr]; exact List.mem_cons_self _ _
        exact List.mem_reverse.mp this
      exact List.dropWhile_cons_of_neg (by simpa using hl a ha)
  have htake : l.reverse.takeWhile (fun b => b != SEP) = l.reverse := by
    rw [List.takeWhile_eq_self_iff]
    intro x hx
    simpa using hl x (List.mem_reverse.mp hx)
  unfold Base
  simp only [hne, if_false, hdrop, htake, List.reverse_reverse]

theorem Base_idem (path : Str) : Base (Base path) = Base path := by
  by_cases hp : path = []
  · have h1 : Base path = ascii "." := by simp [Base, hp]
    rw [h1]
    decide
  · by_cases hlast : ((path.reverse.dropWhile (fun b => b == SEP)).takeWhile
        (fun b => b != SEP)).reverse = []
    · have h1 : Base path = [SEP] := by
        unfold Base
        simp only [hp, if_false, hlast, if_true]
      rw [h1]
      decide
    · have h1 : Base path = ((path.reverse.dropWhile (fun b => b == SEP)).takeWhile
          (fun b => b != SEP)).reverse := by
        unfold Base
        simp only [hp, if_false, hlast]
      rw [h1]
      apply Base_plain _ hlast
      intro b hb
      have := List.mem_takeWhile_imp (List.mem_reverse.mp hb)
      simpa using this

theorem nested_file_entry (env : Env) (hsort : SortSpec env.sort) (d e : HashEntry)
    (hn : Nested d e) :
    ∀ (filename : Str) (node : FsNode), hashDirectory env filename node = .ok e →
      d.Typ = FILE →
      ∃ q name files x, Reaches env filename node q (.dir name none files) ∧
        x ∈ files ∧ x.name ≠ FHASH_FILENAME ∧ x.isDir = false ∧
        hashFile env (env.join q x.name) x = .ok d := by
  induction hn with
  | self =>
    intro filename node h hd
    obtain ⟨_, _, es, _, _, he⟩ := hashDirectory_ok env filename node _ h
    rw [he] at hd
    simp only [dirEntry, HashEntry.Typ] at hd
    exact absurd hd (by decide)
  | inside c e hc hdc ih =>
    intro filename node h hd
    obtain ⟨name, files, es, hnode, hce, he⟩ := hashDirectory_ok env filename node e h
    subst hnode
    have hc' : c ∈ es := by
      rw [he] at hc
      exact (hsort es).1.subset hc
    obtain ⟨child, hmem, hname, hchild⟩ := childEntries_mem env filename files es hce c hc'
    rcases hashChild_cases env filename child c hchild with ⟨hdir, hh⟩ | ⟨hfile, hh⟩
    · obtain ⟨q, name', files', x, hr, h1, h2, h3, h4⟩ := ih _ _ hh hd
      exact ⟨q, name', files', x,
        Reaches.down filename q name none files child _ hmem hname hdir hr, h1, h2, h3, h4⟩
    · obtain ⟨n, content, _, hcfile⟩ := hashFile_ok env _ child c hh
      have hdc' := nested_leaf d c (by rw [hcfile]; rfl) hdc
      rw [hdc']
      exact ⟨filename, name, files, child, Reaches.here _ _, hmem, hname, hfile, hh⟩

/-! ## Compositionality -/

theorem forall2_of_map_triple (l l' : List HashEntry) (h : l.map triple = l'.map triple) :
    List.Forall₂ (fun a b => triple a = triple b) l l' := by
  induction l generalizing l' with
  | nil =>
    cases l' with
    | nil => exact List.Forall₂.nil
    | cons y ys => simp at h
  | cons x xs ih =>
    cases l' with
    | nil => simp at h
    | cons y ys =>
      simp only [List.map_cons, List.cons.injEq] at h
      exact List.Forall₂.cons h.1 (ih ys h.2)

theorem hashDirectory_path_indep (env : Env) (hobl : SortOblivious env.sort) (q q' n : Str)
    (ch : List FsNode) (c : HashEntry)
    (h : hashDirectory env q (.dir n none ch) = .ok c) :
    ∃ c', hashDirectory env q' (.dir n none ch) = .ok c' ∧ triple c' = triple c ∧
      c'.Files.map triple = c.Files.map triple := by
  obtain ⟨es, hce, he⟩ := hashDirectory_dir_ok env q n ch c h
  have hag := SameContents_agree env hobl ch ch (SameContents_refl ch)
  obtain ⟨es', hce', hf⟩ := childEntries_agree env ch ch hag q q' es hce
  refine ⟨dirEntry env q' es', hashDirectory_dir_of env q' n ch es' hce', ?_, ?_⟩
  · rw [he]
    exact (dirEntry_of_forall2 env hobl q q' es es' hf).symm
  · rw [he]
    have hs := hobl (fun a b => triple a = triple b)
      (fun a b hab => by rw [← triple_hash a, hab]; rfl) es es' hf
    exact (forall2_triple_map _ _ hs).symm

/-! ## A listing handed over in another order -/

/-- When `hashDirectory` is handed the files of a directory in another order, it returns the
same digest and size as long as two of the files with the same digest have the same
length. -/
theorem listing_permutation_files (env : Env) (hsort : SortSpec env.sort)
    (filename name : Str) (files files' : List FsNode) (hperm : files.Perm files')
    (hfiles : ∀ x ∈ files, x.isDir = false)
    (hcoll : ∀ n1 st1 n2 st2, FsNode.file n1 st1 ∈ files → FsNode.file n2 st2 ∈ files →
      env.hash st1.content = env.hash st2.content →
      st1.content.length = st2.content.length)
    (e : HashEntry) (h : hashDirectory env filename (.dir name none files) = .ok e) :
    ∃ e', hashDirectory env filename (.dir name none files') = .ok e' ∧
      e'.Hash = e.Hash ∧ e'.Size = e.Size := by
  obtain ⟨es, hce, he⟩ := hashDirectory_dir_ok env filename name files e h
  obtain ⟨es', hce', hp⟩ := childEntries_perm env filename files files' hperm es hce
  refine ⟨dirEntry env filename es', hashDirectory_dir_of env filename name files' es' hce', ?_⟩
  have hfile : ∀ a ∈ es, ∃ n st, FsNode.file n st ∈ files ∧
      triple a = (FILE, env.hash st.content, Int.ofNat st.content.length) := by
    intro a ha
    obtain ⟨x, hx, _, hxa⟩ := childEntries_mem env filename files es hce a ha
    rcases hashChild_cases env filename x a hxa with ⟨hd, _⟩ | ⟨_, hf⟩
    · rw [hfiles x hx] at hd
      exact absurd hd (by decide)
    · obtain ⟨n, c, hxf, haf⟩ := hashFile_ok env _ x a hf
      refine ⟨n, FileState.mk c none none none, by rw [← hxf]; exact hx, ?_⟩
      rw [haf]
      rfl
  have htie : ∀ a ∈ es, ∀ b ∈ es, a.Hash = b.Hash → triple a = triple b := by
    intro a ha b hb hab
    obtain ⟨n1, st1, hm1, ht1⟩ := hfile a ha
    obtain ⟨n2, st2, hm2, ht2⟩ := hfile b hb
    have hh : env.hash st1.content = env.hash st2.content := by
      have e1 : a.Hash = env.hash st1.content := by rw [← triple_hash a, ht1]
      have e2 : b.Hash = env.hash st2.content := by rw [← triple_hash b, ht2]
      rw [← e1, ← e2, hab]
    rw [ht1, ht2, hh, hcoll n1 st1 n2 st2 hm1 hm2 hh]
  have ht := dirEntry_of_triples env hsort filename filename es' es (hp.map triple).symm ?_
  · rw [he]
    simp only [triple, Prod.mk.injEq] at ht
    exact ⟨ht.2.1, ht.2.2⟩
  · intro a ha b hb
    exact htie a (hp.symm.subset ha) b (hp.symm.subset hb)

/-- The sort inside `hashDirectory` compares digests only and leaves children with equal
digests in the order of the listing it is handed: with the empty file `a` and the empty
directory `b` in the order `a`, `b` the digest differs from the one for the order `b`, `a`,
which is also the digest for the empty directory `a` next to the empty file `b`. (The
digest of a byte sequence is taken to be the sequence itself.) -/
theorem listing_order_matters_at_ties :
    (hashDirectory idEnv (ascii "d") (plainDir "d" [plainFile "a" "", plainDir "b" []])).toOption.map
        HashEntry.Hash = some (ascii "F :0\nD :0\n") ∧
    (hashDirectory idEnv (ascii "d") (plainDir "d" [plainDir "b" [], plainFile "a" ""])).toOption.map
        HashEntry.Hash = some (ascii "D :0\nF :0\n") ∧
    (hashDirectory idEnv (ascii "d") (plainDir "d" [plainDir "a" [], plainFile "b" ""])).toOption.map
        HashEntry.Hash = some (ascii "D :0\nF :0\n") ∧
    ascii "F :0\nD :0\n" ≠ ascii "D :0\nF :0\n" := by
  decide

/-- When `hashDirectory` is handed the listing of each directory, at any depth, in another
order, it returns the same digest and size as long as children of one directory with
equal digests also have equal kind and size. -/
theorem listing_reorder_without_ties (env : Env) (hsort : SortSpec env.sort)
    (filename name : Str) (files files' : List FsNode) (hre : Reordered files files')
    (e : HashEntry) (h : hashDirectory env filename (.dir name none files) = .ok e)
    (hties : tieFree e = true) :
    ∃ e', hashDirectory env filename (.dir name none files') = .ok e' ∧
      e'.Hash = e.Hash ∧ e'.Size = e.Size := by
  obtain ⟨es, hce, he⟩ := hashDirectory_dir_ok env filename name files e h
  have hte := tieFree_spec e hties
  have hfiles : e.Files = env.sort es := by rw [he]; rfl
  rw [hfiles] at hte
  have hmem : ∀ c, c ∈ es → c ∈ env.sort es := fun c hc => (hsort es).1.symm.subset hc
  obtain ⟨es', hce', hp⟩ := childEntries_reordered env hsort files files' hre filename es hce
    (fun c hc => hte.2 c (hmem c hc))
  refine ⟨dirEntry env filename es', hashDirectory_dir_of env filename name files' es' hce', ?_⟩
  have ht := dirEntry_of_triples env hsort filename filename es es' hp
    (fun a ha b hb => hte.1 a (hmem a ha) b (hmem b hb))
  rw [he]
  simp only [triple, Prod.mk.injEq] at ht
  exact ⟨ht.2.1.symm, ht.2.2.symm⟩

/-! ## `ioutil.ReadDir` undoes the order of enumeration -/

theorem strLess_asymm (a b : Str) (h : strLess a b = true) : strLess b a = false := by
  by_contra hc
  have hc' : strLess b a = true := by simpa using hc
  have := strLess_trans _ _ _ h hc'
  rw [strLess_irrefl] at this
  exact absurd this (by decide)

theorem insertByName_perm (x : FsNode) (l : List FsNode) :
    (insertByName x l).Perm (x :: l) := by
  induction l with
  | nil => exact List.Perm.refl _
  | cons y ys ih =>
    simp only [insertByName]
    by_cases h : strLess y.name x.name = true
    · simp only [h, if_true]
      exact (List.Perm.cons y ih).trans (List.Perm.swap x y ys)
    · simp only [h]
      exact List.Perm.refl _

theorem insertByName_sorted (x : FsNode) (l : List FsNode)
    (h : l.Pairwise (fun a b => strLess b.name a.name = false)) :
    (insertByName x l).Pairwise (fun a b => strLess b.name a.name = false) := by
  induction l with
  | nil => simp [insertByName]
  | cons y ys ih =>
    obtain ⟨hy, hys⟩ := List.pairwise_cons.mp h
    simp only [insertByName]
    by_cases hx : strLess y.name x.name = true
    · simp only [hx, if_true]
      refine List.pairwise_cons.mpr ⟨?_, ih hys⟩
      intro z hz
      rcases List.mem_cons.mp ((insertByName_perm x ys).subset hz) with rfl | hz
      · exact strLess_asymm _ _ hx
      · exact hy z hz
    · have hx' : strLess y.name x.name = false := by simpa using hx
      simp only [hx]
      refine List.pairwise_cons.mpr ⟨?_, h⟩
      intro z hz
      rcases List.mem_cons.mp hz with rfl | hz
      · exact hx'
      · exact strLess_le_trans _ _ _ hx' (hy z hz)

theorem sortByName_spec : ReadDirSpec sortByName := by
  intro l
  induction l with
  | nil => exact ⟨List.Perm.refl _, List.Pairwise.nil⟩
  | cons x xs ih =>
    simp only [sortByName]
    exact ⟨(insertByName_perm x _).trans (List.Perm.cons x ih.1),
      insertByName_sorted x _ ih.2⟩

/-- The order on names in which `ioutil.ReadDir` returns the entries. -/
theorem names_sorted_unique (l1 l2 : List Str) (hp : l1.Perm l2)
    (h1 : l1.Pairwise (fun a b => strLess b a = false))
    (h2 : l2.Pairwise (fun a b => strLess b a = false)) : l1 = l2 := by
  haveI : IsAntisymm Str (fun a b => strLess b a = false) :=
    ⟨fun a b hab hba => strLess_antisymm a b hba hab⟩
  exact List.eq_of_perm_of_sorted hp h1 h2

/-- Two enumerations of the same entries, no two with the same name, give the same
listing. -/
theorem readDir_unique (readDir : List FsNode → List FsNode) (hrd : ReadDirSpec readDir)
    (l1 l2 : List FsNode) (hp : l1.Perm l2) (hn : (l1.map FsNode.name).Nodup) :
    readDir l1 = readDir l2 := by
  have p : (readDir l1).Perm (readDir l2) := (hrd l1).1.trans (hp.trans (hrd l2).1.symm)
  have hnames : (readDir l1).map FsNode.name = (readDir l2).map FsNode.name :=
    names_sorted_unique _ _ (p.map _) (List.pairwise_map.mpr (hrd l1).2)
      (List.pairwise_map.mpr (hrd l2).2)
  have key := map_eq_of_key_eq FsNode.name (fun x : FsNode => x) (readDir l1) (readDir l2)
    hnames (by
      intro x hx y hy hxy
      have hx1 : x ∈ l1 := (hrd l1).1.subset hx
      have hy1 : y ∈ l1 := hp.symm.subset ((hrd l2).1.subset hy)
      exact List.inj_on_of_nodup_map hn hx1 hy1 hxy)
  simpa using key

theorem asListedAll_eq_map (readDir : List FsNode → List FsNode) (l : List FsNode) :
    asListedAll readDir l = l.map (asListed readDir) := by
  induction l with
  | nil => rfl
  | cons x xs ih => simp [asListedAll, ih]

theorem asListed_name (readDir : List FsNode → List FsNode) (x : FsNode) :
    (asListed readDir x).name = x.name := by
  cases x <;> rfl

theorem asListedAll_names (readDir : List FsNode → List FsNode) (l : List FsNode) :
    (asListedAll readDir l).map FsNode.name = l.map FsNode.name := by
  rw [asListedAll_eq_map, List.map_map]
  apply List.map_congr_left
  intro x _
  exact asListed_name readDir x

theorem namesDistinctAll_iff (l : List FsNode) :
    namesDistinctAll l = true ↔ ∀ x ∈ l, namesDistinct x = true := by
  induction l with
  | nil => simp [namesDistinctAll]
  | cons x xs ih => simp [namesDistinctAll, ih]

theorem asListedAll_reordered (readDir : List FsNode → List FsNode)
    (hrd : ReadDirSpec readDir) (l1 l2 : List FsNode) (hre : Reordered l1 l2) :
    namesDistinctAll l1 = true → (asListedAll readDir l1).Perm (asListedAll readDir l2) := by
  induction hre with
  | nil => intro _; exact List.Perm.refl _
  | file n st l1 l2 _ ih =>
    intro hd
    simp only [namesDistinctAll, Bool.and_eq_true] at hd
    simp only [asListedAll, asListed]
    exact List.Perm.cons _ (ih hd.2)
  | dir n readErr ch1 ch2 l1 l2 _ _ ihc ihl =>
    intro hd
    simp only [namesDistinctAll, namesDistinct, Bool.and_eq_true, decide_eq_true_eq] at hd
    obtain ⟨⟨hnodup, hch⟩, hl⟩ := hd
    have heq : readDir (asListedAll readDir ch1) = readDir (asListedAll readDir ch2) :=
      readDir_unique readDir hrd _ _ (ihc hch) (by rw [asListedAll_names]; exact hnodup)
    simp only [asListedAll, asListed, heq]
    exact List.Perm.cons _ (ihl hl)
  | perm l1 l1' l2 hp _ ih =>
    intro hd
    have hd' : namesDistinctAll l1' = true := by
      rw [namesDistinctAll_iff] at hd ⊢
      exact fun x hx => hd x (hp.symm.subset hx)
    have h1 : (asListedAll readDir l1).Perm (asListedAll readDir l1') := by
      rw [asListedAll_eq_map, asListedAll_eq_map]
      exact hp.map _
    exact h1.trans (ih hd')

theorem asListed_reordered (readDir : List FsNode → List FsNode)
    (hrd : ReadDirSpec readDir) (name : Str) (readErr : Option IOError)
    (raw raw' : List FsNode) (hre : Reordered raw raw')
    (hnames : namesDistinct (.dir name readErr raw) = true) :
    asListed readDir (.dir name readErr raw) = asListed readDir (.dir name readErr raw') := by
  simp only [namesDistinct, Bool.and_eq_true, decide_eq_true_eq] at hnames
  have hp := asListedAll_reordered readDir hrd raw raw' hre hnames.2
  have heq := readDir_unique readDir hrd _ _ hp (by rw [asListedAll_names]; exact hnames.1)
  simp only [asListed, heq]

theorem listFails_of_all (l : List FsNode) (h : ∀ x ∈ l, nodeFails x = false) :
    listFails l = false := by
  induction l with
  | nil => rfl
  | cons x xs ih =>
    simp only [listFails, h x (List.mem_cons_self _ _), Bool.and_false, Bool.false_or]
    exact ih (fun y hy => h y (List.mem_cons_of_mem _ hy))

theorem hashDirectory_files_ok (env : Env) (readDir : List FsNode → List FsNode)
    (hrd : ReadDirSpec readDir) (filename name : Str) (pairs : List (Str × Str)) :
    ∃ e, hashDirectory env filename (.dir name none (readDir (pairs.map fileNode))) = .ok e := by
  rw [except_ok_or_error, hashDirectory_fails]
  have : listFails (readDir (pairs.map fileNode)) = false := by
    apply listFails_of_all
    intro x hx
    obtain ⟨p, _, rfl⟩ := List.mem_map.mp ((hrd _).1.subset hx)
    rfl
  simp [nodeFails, this]

/-! ## The serializer -/

/-- C9: with `recursive=false`, `printHashEntry` writes one line: the kind character, a
space, the lowercase hexadecimal digest (two characters of `0123456789abcdef` per byte), a
colon, the size in decimal (a minus sign for a negative size, then decimal digits that
denote its absolute value), then a space and the base name exactly when `includeName` is
set, then a newline. The kind characters are `F`, `D` and `#`, pairwise distinct, and
without the name the output depends on neither the name nor the children of the entry. -/
theorem printHashEntry_line_format :
    (∀ e : HashEntry, printHashEntry e false false =
        fmtChar e.Typ ++ ascii " " ++ hexEncode e.Hash ++ ascii ":" ++ fmtInt e.Size
          ++ ascii "\n") ∧
    (∀ e : HashEntry, printHashEntry e true false =
        fmtChar e.Typ ++ ascii " " ++ hexEncode e.Hash ++ ascii ":" ++ fmtInt e.Size
          ++ ascii " " ++ Base e.Name ++ ascii "\n") ∧
    (fmtChar FILE = ascii "F" ∧ fmtChar DIR = ascii "D" ∧ fmtChar SUMMARY = ascii "#") ∧
    (FILE ≠ DIR ∧ FILE ≠ SUMMARY ∧ DIR ≠ SUMMARY) ∧
    (∀ h : Str, (hexEncode h).length = 2 * h.length ∧
        ∀ c ∈ hexEncode h, c ∈ ascii "0123456789abcdef") ∧
    (∀ s : Int, fmtInt s = (if s < 0 then ascii "-" else []) ++ fmtNat s.natAbs) ∧
    (∀ n : Nat, decValue (fmtNat n) = n ∧ fmtNat n ≠ [] ∧
        ∀ c ∈ fmtNat n, c ∈ ascii "0123456789") ∧
    (∀ (t : EntryType) (h : Str) (s : Int) (n n' : Str) (fs fs' : List HashEntry),
        printHashEntry (HashEntry.mk t h s n fs) false false =
          printHashEntry (HashEntry.mk t h s n' fs') false false) := by
  refine ⟨?_, ?_, ?_, ?_, ?_, ?_, ?_, ?_⟩
  · intro e
    have hnl : ascii "\n" = [NL] := by decide
    rw [printHashEntry_flat, hnl]
    simp [printLine]
  · intro e
    have hnl : ascii "\n" = [NL] := by decide
    rw [printHashEntry_flat, hnl]
    simp [printLine]
  · decide
  · decide
  · intro h
    exact ⟨hexEncode_length h, hexEncode_mem h⟩
  · intro s
    unfold fmtInt
    by_cases hs : s < 0
    · simp only [hs, if_true]
      have : (-s).toNat = s.natAbs := by omega
      rw [this]
      rfl
    · simp only [hs, if_false]
      have : s.toNat = s.natAbs := by omega
      rw [this]
      rfl
  · intro n
    obtain ⟨h1, h2, h3⟩ := fmtNat_spec n
    exact ⟨h1, h2, fun c hc => digit_mem_ascii c (h3 c hc)⟩
  · intro t h s n n' fs fs'
    simp [printHashEntry_flat, printLine, HashEntry.Typ, HashEntry.Hash, HashEntry.Size]

/-- C9, at a file entry with digest `0a ff`, size 5 and name `dir/a`: the hexadecimal text has
4 characters. -/
theorem printHashEntry_line_format_witness :
    (hexEncode [10, 255]).length = 2 * ([10, 255] : Str).length :=
  (printHashEntry_line_format.2.2.2.2.1 [10, 255]).1

/-- C10: for an entry of kind `DIR`, `printHashEntry` with `recursive=true` writes the line
of the entry followed by the line of each immediate child in the stored order, with the
caller's `includeName`: `1 + len(Files)` lines, each child line being what
`printHashEntry` writes for that child with `recursive=false`. The output is the same
for any other children sequence that agrees on the children's own fields, whatever lies
below the children. -/
theorem printHashEntry_recursive_shallow (e : HashEntry) (includeName : Bool)
    (hdir : e.Typ = DIR) :
    printHashEntry e includeName true =
      printHashEntry e includeName false ++
        concatStr (e.Files.map (fun c => printHashEntry c includeName false)) ∧
    printHashEntry e includeName true =
      concatStr ((e :: e.Files).map
        (fun x => printLine x.Typ x.Hash x.Size x.Name includeName)) ∧
    ((e :: e.Files).map (fun x => printLine x.Typ x.Hash x.Size x.Name includeName)).length
      = 1 + e.Files.length ∧
    (∀ e' : HashEntry, ownFields e' = ownFields e →
      e'.Files.map ownFields = e.Files.map ownFields →
      printHashEntry e' includeName true = printHashEntry e includeName true) := by
  have main : ∀ x : HashEntry, x.Typ = DIR → printHashEntry x includeName true =
      concatStr ((x :: x.Files).map
        (fun y => printLine y.Typ y.Hash y.Size y.Name includeName)) := by
    intro x hx
    cases x with
    | mk t h s n fs =>
      simp only [HashEntry.Typ] at hx
      subst hx
      simp [printHashEntry, printFiles_eq, concatStr, printHashEntry_flat, HashEntry.Typ,
        HashEntry.Hash, HashEntry.Size, HashEntry.Name, HashEntry.Files]
  refine ⟨?_, main e hdir, ?_, ?_⟩
  · rw [main e hdir]
    simp [concatStr, printHashEntry_flat]
  · simp; omega
  · intro e' h1 h2
    have hd' : e'.Typ = DIR := by
      have := congrArg Prod.fst h1
      simp only [ownFields] at this
      rw [this, hdir]
    rw [main e hdir, main e' hd']
    have hl : ∀ x : HashEntry, printLine x.Typ x.Hash x.Size x.Name includeName =
        (fun p : EntryType × Str × Int × Str => printLine p.1 p.2.1 p.2.2.1 p.2.2.2 includeName)
          (ownFields x) := fun x => rfl
    simp only [List.map_cons, hl, concatStr]
    rw [h1]
    have := congrArg (List.map (fun p : EntryType × Str × Int × Str =>
        printLine p.1 p.2.1 p.2.2.1 p.2.2.2 includeName)) h2
    simp only [List.map_map] at this
    exact congrArg _ (congrArg concatStr this)

/-- C10, at a tree of depth two: three lines, none for the grandchild. -/
theorem printHashEntry_recursive_shallow_witness :
    printHashEntry sampleEntry true true = ascii "D 01:3 d\nF 02:1 a\nD 03:2 s\n" ∧
    printHashEntry sampleEntry true true =
      printHashEntry sampleEntry true false ++
        concatStr (sampleEntry.Files.map (fun c => printHashEntry c true false)) :=
  ⟨by decide, (printHashEntry_recursive_shallow sampleEntry true (by decide)).1⟩

/-! ## The digest of a directory -/

/-- C1: the digest of the entry that `hashDirectory` returns is the hash of the
concatenation, in the order of the returned `Files`, of the name-free lines
`<kind-char> <hex digest>:<decimal size>\n` of the children, and of nothing else. For a
directory that lists two files with contents `hello` and `world`, in either order, it is
the hash of the two lines with the smaller hexadecimal digest first. -/
theorem hashDirectory_digest (env : Env) (hsort : SortSpec env.sort) :
    (∀ (filename : Str) (node : FsNode) (e : HashEntry),
      hashDirectory env filename node = .ok e →
      e.Hash = env.hash (concatStr (e.Files.map nameFreeLine))) ∧
    (∀ e : HashEntry, nameFreeLine e = printHashEntry e false false ∧
      nameFreeLine e = fmtChar e.Typ ++ ascii " " ++ hexEncode e.Hash ++ ascii ":"
        ++ fmtInt e.Size ++ ascii "\n") ∧
    (∀ (filename name n1 n2 : Str) (files : List FsNode),
      n1 ≠ FHASH_FILENAME → n2 ≠ FHASH_FILENAME →
      files.Perm [.file n1 (FileState.mk (ascii "hello") none none none),
                  .file n2 (FileState.mk (ascii "world") none none none)] →
      ∃ e, hashDirectory env filename (.dir name none files) = .ok e ∧
        e.Hash = env.hash
          (if strLess (hexEncode (env.hash (ascii "world"))) (hexEncode (env.hash (ascii "hello")))
           then ascii "F " ++ hexEncode (env.hash (ascii "world")) ++ ascii ":5\n"
                  ++ (ascii "F " ++ hexEncode (env.hash (ascii "hello")) ++ ascii ":5\n")
           else ascii "F " ++ hexEncode (env.hash (ascii "hello")) ++ ascii ":5\n"
                  ++ (ascii "F " ++ hexEncode (env.hash (ascii "world")) ++ ascii ":5\n"))) := by
  refine ⟨?_, fun e => ⟨rfl, nameFreeLine_eq e⟩, ?_⟩
  · intro filename node e h
    obtain ⟨name, files, es, _, _, he⟩ := hashDirectory_ok env filename node e h
    rw [he]
    rfl
  · intro filename name n1 n2 files h1 h2 hperm
    -- the entries of the two files
    let eh : HashEntry := HashEntry.mk FILE (env.hash (ascii "hello")) 5 (env.join filename n1) []
    let ew : HashEntry := HashEntry.mk FILE (env.hash (ascii "world")) 5 (env.join filename n2) []
    have hlh : nameFreeLine eh = ascii "F " ++ hexEncode (env.hash (ascii "hello")) ++ ascii ":5\n" := by
      rw [nameFreeLine_eq]
      have h5 : fmtInt 5 = ascii "5" := by decide
      have hF : fmtChar FILE = ascii "F" := by decide
      simp only [eh, HashEntry.Typ, HashEntry.Hash, HashEntry.Size, h5, hF]
      simp [ascii]
    have hlw : nameFreeLine ew = ascii "F " ++ hexEncode (env.hash (ascii "world")) ++ ascii ":5\n" := by
      rw [nameFreeLine_eq]
      have h5 : fmtInt 5 = ascii "5" := by decide
      have hF : fmtChar FILE = ascii "F" := by decide
      simp only [ew, HashEntry.Typ, HashEntry.Hash, HashEntry.Size, h5, hF]
      simp [ascii]
    have hes : ∃ es, childEntries env filename files = .ok es ∧ (es = [eh, ew] ∨ es = [ew, eh]) := by
      have hh : (ascii "hello").length = 5 := by decide
      have hw : (ascii "world").length = 5 := by decide
      rcases perm_pair files _ _ hperm with hf | hf
      · refine ⟨[eh, ew], ?_, Or.inl rfl⟩
        rw [hf]
        simp [childEntries, hashChild, hashNode, hashFile, FsNode.name, FsNode.isDir, h1, h2,
          eh, ew, hh, hw]
      · refine ⟨[ew, eh], ?_, Or.inr rfl⟩
        rw [hf]
        simp [childEntries, hashChild, hashNode, hashFile, FsNode.name, FsNode.isDir, h1, h2,
          eh, ew, hh, hw]
    obtain ⟨es, hce, hcases⟩ := hes
    refine ⟨dirEntry env filename es, ?_, ?_⟩
    · rw [hashDirectory_dir, hce]
    · have hp : (env.sort es).Perm [eh, ew] := by
        rcases hcases with h | h
        · rw [h]; exact (hsort _).1
        · rw [h]; exact ((hsort _).1).trans (List.Perm.swap _ _ _)
      have hs := (hsort es).2
      have hLess : Less ew eh = strLess (hexEncode (env.hash (ascii "world")))
          (hexEncode (env.hash (ascii "hello"))) := rfl
      rw [(dirEntry_fields env filename es).2.1, ← hLess, ← hlh, ← hlw]
      congr 1
      rcases perm_pair _ _ _ hp with h | h
      · rw [h] at hs ⊢
        have : Less ew eh = false := by
          simpa using (List.pairwise_cons.mp hs).1 ew (by simp)
        simp [this, concatStr]
      · rw [h] at hs ⊢
        have h' : Less eh ew = false := by
          simpa using (List.pairwise_cons.mp hs).1 eh (by simp)
        by_cases hc : Less ew eh = true
        · simp [hc, concatStr]
        · have hc' : Less ew eh = false := by simpa using hc
          have heq := strLess_antisymm _ _ hc' h'
          have hl : nameFreeLine ew = nameFreeLine eh := by
            rw [hlh, hlw]
            simp only [ew, eh, HashEntry.Hash] at heq
            rw [heq]
          simp [hc', concatStr, hl]

/-- C1, with the digest of a byte sequence taken to be the sequence itself, on the
directory `d` that lists `b` (content `world`) before `a` (content `hello`). -/
theorem hashDirectory_digest_witness :
    ∃ e, hashDirectory idEnv (ascii "d") (plainDir "d" [plainFile "b" "world", plainFile "a" "hello"])
        = .ok e ∧
      e.Hash = ascii "F 68656c6c6f:5\nF 776f726c64:5\n" := by
  obtain ⟨e, h1, h2⟩ := (hashDirectory_digest idEnv GoInsertionSort_spec).2.2
    (ascii "d") (ascii "d") (ascii "a") (ascii "b")
    [plainFile "b" "world", plainFile "a" "hello"] (by decide) (by decide)
    (List.Perm.swap _ _ _)
  exact ⟨e, h1, by rw [h2]; decide⟩

/-! ## The run driver -/

set_option maxRecDepth 100000 in
/-- C8: on the directory `d` that holds the single file `a` with content `hello`, the text
that `main` writes to the manifest is the line of the root alone; no line for the child
`a` follows, because the root's kind is `SUMMARY` when `printHashEntry` tests for `DIR`.
(The digest of a byte sequence is taken to be the sequence itself.) -/
theorem manifest_omits_children :
    mainArg idEnv (ascii "d") none (plainDir "d" [plainFile "a" "hello"]) none =
      .completed (ascii "d: 4620363836353663366336663a350a\n")
        (ascii "# 4620363836353663366336663a350a:5 d\n") := by
  decide

/-! ## The children sequence -/

/-- C2: in the entry that `hashDirectory` returns, the children sequence of the entry
itself and of every directory entry nested in it is a permutation of the entries
computed for the listed children not named `.fhash` of the directory it was computed
from, and is sorted: no child is `Less` (smaller hexadecimal digest) than one before it. -/
theorem hashDirectory_children_sorted_perm (env : Env) (hsort : SortSpec env.sort)
    (filename : Str) (node : FsNode) (e : HashEntry)
    (h : hashDirectory env filename node = .ok e) (d : HashEntry) (hd : Nested d e)
    (hdir : d.Typ = DIR) :
    ∃ q name files es, Reaches env filename node q (.dir name none files) ∧
      childEntries env q files = .ok es ∧ d.Files.Perm es ∧ SortedByDigest d.Files :=
  nested_dir_sorted env hsort d e hd filename node h hdir

/-- C2, at the root entry of `sampleTree`. -/
theorem hashDirectory_children_sorted_perm_witness :
    ∃ q name files es, Reaches idEnv (ascii "d") sampleTree q (.dir name none files) ∧
      childEntries idEnv q files = .ok es ∧
      (entryOf (hashDirectory idEnv (ascii "d") sampleTree)).Files.Perm es ∧
      SortedByDigest (entryOf (hashDirectory idEnv (ascii "d") sampleTree)).Files :=
  hashDirectory_children_sorted_perm idEnv GoInsertionSort_spec (ascii "d") sampleTree
    (entryOf (hashDirectory idEnv (ascii "d") sampleTree)) rfl
    (entryOf (hashDirectory idEnv (ascii "d") sampleTree)) (Nested.self _) rfl

/-! ## Self-exclusion of the manifest -/

/-- C6: two listings of a directory that agree once the children named `.fhash` are left
out give the same result of `hashDirectory` (digest, size, children sequence), and the
same outcome of `main`: adding, replacing or removing a child named `.fhash`, whatever it
holds, changes nothing, so a run on a directory that holds the manifest of an earlier run
reports the same digest. -/
theorem manifest_child_ignored (env : Env) (filename name : Str) (readErr : Option IOError)
    (files files' : List FsNode) (h : files.filter isListed = files'.filter isListed) :
    hashDirectory env filename (.dir name readErr files) =
      hashDirectory env filename (.dir name readErr files') ∧
    (∀ statErr createErr : Option IOError,
      mainArg env filename statErr (.dir name readErr files) createErr =
        mainArg env filename statErr (.dir name readErr files') createErr) ∧
    (∀ (pre post : List FsNode) (x : FsNode), files = pre ++ post →
      x.name = FHASH_FILENAME →
      hashDirectory env filename (.dir name readErr (pre ++ x :: post)) =
        hashDirectory env filename (.dir name readErr files)) := by
  have h1 := hashDirectory_filter env filename name readErr files files' h
  refine ⟨h1, ?_, ?_⟩
  · intro statErr createErr
    simp only [mainArg, FsNode.isDir, h1]
  · intro pre post x hf hx
    apply hashDirectory_filter
    have : isListed x = false := by simp [isListed, hx]
    rw [hf, List.filter_append, List.filter_append, List.filter_cons_of_neg (by simp [this])]

/-- C6, on `sampleTree`: the stale manifest in the root is replaced by one with another
content and a second one is added in front. -/
theorem manifest_child_ignored_witness :
    hashDirectory idEnv (ascii "d") sampleTree =
      hashDirectory idEnv (ascii "d")
        (plainDir "d" [plainFile ".fhash" "# 00:0 d", plainFile "b" "world",
          plainDir "s" [plainFile "x" "yy", plainFile ".fhash" "old"],
          plainFile "a" "hello", plainDir ".fhash" [plainFile "q" "zz"]]) :=
  (manifest_child_ignored idEnv (ascii "d") (ascii "d") none _ _ rfl).1

/-! ## Rename invariance -/

/-- C5, refuted: renaming the file `a` (content `hello`) of the directory `d` to `.fhash`
changes the digest of `d`: the renamed file is no longer hashed. (The digest of a byte
sequence is taken to be the sequence itself.) -/
theorem rename_to_manifest_changes_digest :
    (hashDirectory idEnv (ascii "d") (plainDir "d" [plainFile "a" "hello"])).toOption.map
        HashEntry.Hash = some (ascii "F 68656c6c6f:5\n") ∧
    (hashDirectory idEnv (ascii "d") (plainDir "d" [plainFile ".fhash" "hello"])).toOption.map
        HashEntry.Hash = some [] ∧
    ascii "F 68656c6c6f:5\n" ≠ [] := by
  decide

/-- C5, amended: when one file or subdirectory of a tree gets a new name, neither the old
nor the new name being `.fhash`, with contents and listing order unchanged, the renamed
node and every directory above it up to the root (each is a pair `t`, `t'` of `Renamed`)
get an entry with the same kind, digest and size as before, whatever path they are
hashed at; for a directory `hashNode` is `hashDirectory`. -/
theorem rename_keeps_digest (env : Env) (hobl : SortOblivious env.sort) (t t' : FsNode)
    (h : Renamed t t') (path path' : Str) (e : HashEntry)
    (he : hashNode env path t = .ok e) :
    ∃ e', hashNode env path' t' = .ok e' ∧
      e'.Typ = e.Typ ∧ e'.Hash = e.Hash ∧ e'.Size = e.Size := by
  have hs := SameContents_agree env hobl [t] [t'] (Renamed_same t t' h)
  have hn : NodeAgree env t t' := by
    cases hs with
    | cons h1 _ => exact h1
  obtain ⟨e', h1, h2⟩ := hn.2 path path' e he
  simp only [triple, Prod.mk.injEq] at h2
  exact ⟨e', h1, h2.1.symm, h2.2.1.symm, h2.2.2.symm⟩

/-- C5 as amended, on `sampleTree` hashed as a directory: the subdirectory `s` is renamed
to `photos`. -/
theorem rename_keeps_digest_witness :
    ∃ e', hashDirectory idEnv (ascii "d")
        (plainDir "d" [plainFile "b" "world",
          plainDir "photos" [plainFile "x" "yy", plainFile ".fhash" "old"],
          plainFile "a" "hello", plainFile ".fhash" "stale"]) = .ok e' ∧
      e'.Typ = (entryOf (hashDirectory idEnv (ascii "d") sampleTree)).Typ ∧
      e'.Hash = (entryOf (hashDirectory idEnv (ascii "d") sampleTree)).Hash ∧
      e'.Size = (entryOf (hashDirectory idEnv (ascii "d") sampleTree)).Size :=
  rename_keeps_digest idEnv GoInsertionSort_oblivious sampleTree
    (plainDir "d" [plainFile "b" "world",
      plainDir "photos" [plainFile "x" "yy", plainFile ".fhash" "old"],
      plainFile "a" "hello", plainFile ".fhash" "stale"])
    (Renamed.inside (ascii "d") none [plainFile "b" "world"]
      [plainFile "a" "hello", plainFile ".fhash" "stale"] _ _
      (Renamed.dir (ascii "s") (ascii "photos") none _ (by decide) (by decide)))
    (ascii "d") (ascii "d") _ rfl

/-- C7: with a hash that has no collisions, when the content of one file that the
traversal reaches is changed (one byte or more), the entry of that file and the entry that
`hashDirectory` computes for every directory above it up to the root (each is a pair `t`,
`t'` of `Changed`; for a directory `hashNode` is `hashDirectory`) get another digest. -/
theorem content_sensitivity (env : Env) (hinj : Function.Injective env.hash)
    (hsort : SortSpec env.sort) (t t' : FsNode) (h : Changed t t') (path : Str)
    (e : HashEntry) (he : hashNode env path t = .ok e) :
    ∃ e', hashNode env path t' = .ok e' ∧ e'.Hash ≠ e.Hash :=
  Changed_digest env hinj hsort t t' h path e he

/-- C7, on `sampleTree` hashed as a directory: in the file `x` of the subdirectory `s` the
content `yy` becomes `yz`. -/
theorem content_sensitivity_witness :
    ∃ e', hashDirectory idEnv (ascii "d")
        (plainDir "d" [plainFile "b" "world",
          plainDir "s" [plainFile "x" "yz", plainFile ".fhash" "old"],
          plainFile "a" "hello", plainFile ".fhash" "stale"]) = .ok e' ∧
      e'.Hash ≠ (entryOf (hashDirectory idEnv (ascii "d") sampleTree)).Hash :=
  content_sensitivity idEnv (fun _ _ h => h) GoInsertionSort_spec sampleTree
    (plainDir "d" [plainFile "b" "world",
      plainDir "s" [plainFile "x" "yz", plainFile ".fhash" "old"],
      plainFile "a" "hello", plainFile ".fhash" "stale"])
    (Changed.inside (ascii "d") none [plainFile "b" "world"]
      [plainFile "a" "hello", plainFile ".fhash" "stale"] _ _ (by decide)
      (Changed.inside (ascii "s") none [] [plainFile ".fhash" "old"] _ _ (by decide)
        (Changed.file (ascii "x") (ascii "yy") (ascii "yz") none none none (by decide))))
    (ascii "d") _ rfl

/-! ## The empty directory -/

/-- C12: for a directory whose listing is empty, and for one whose only child is named
`.fhash`, `hashDirectory` succeeds and returns kind `DIR`, the digest of the empty byte
sequence, size 0 and no children. -/
theorem empty_directory_law (env : Env) (hsort : SortSpec env.sort) (filename name : Str) :
    hashDirectory env filename (.dir name none []) =
      .ok (HashEntry.mk DIR (env.hash []) 0 (Base filename) []) ∧
    (∀ x : FsNode, x.name = FHASH_FILENAME →
      hashDirectory env filename (.dir name none [x]) =
        .ok (HashEntry.mk DIR (env.hash []) 0 (Base filename) [])) := by
  have h0 : hashDirectory env filename (.dir name none []) =
      .ok (HashEntry.mk DIR (env.hash []) 0 (Base filename) []) := by
    rw [hashDirectory_dir]
    simp only [childEntries, dirEntry, sort_nil env hsort, List.map_nil, concatStr, addSizes,
      List.foldl_nil]
  refine ⟨h0, ?_⟩
  intro x hx
  rw [← h0]
  apply hashDirectory_filter
  simp [isListed, hx]

/-- C12, on an empty directory `d` and on one that holds only a manifest. -/
theorem empty_directory_law_witness :
    hashDirectory idEnv (ascii "d") (plainDir "d" []) =
      .ok (HashEntry.mk DIR [] 0 (ascii "d") []) ∧
    hashDirectory idEnv (ascii "d") (plainDir "d" [plainFile ".fhash" "# 00:0 d"]) =
      .ok (HashEntry.mk DIR [] 0 (ascii "d") []) :=
  ⟨(empty_directory_law idEnv GoInsertionSort_spec (ascii "d") (ascii "d")).1,
   (empty_directory_law idEnv GoInsertionSort_spec (ascii "d") (ascii "d")).2 _ rfl⟩

/-! ## Failures -/

/-- C13: `hashDirectory` on a directory returns an error exactly when the traversal meets
a failure (`nodeFails`): listing the directory fails, or a listed child not named `.fhash`
is a file whose hashing fails or a directory whose traversal meets a failure, at any
depth; it returns an entry exactly when there is none. A child named `.fhash` is never
looked into, and a failed listing is returned as the error. -/
theorem hashDirectory_error_propagation (env : Env) (filename name : Str)
    (readErr : Option IOError) (files : List FsNode) :
    ((∃ err, hashDirectory env filename (.dir name readErr files) = .error err) ↔
      nodeFails (.dir name readErr files) = true) ∧
    ((∃ e, hashDirectory env filename (.dir name readErr files) = .ok e) ↔
      nodeFails (.dir name readErr files) = false) ∧
    (nodeFails (.dir name readErr files) = (readErr.isSome || listFails files)) ∧
    (∀ (n : Str) (st : FileState), nodeFails (.file n st) =
      (st.statErr.isSome || st.openErr.isSome || st.readErr.isSome)) ∧
    (∀ (x : FsNode) (rest : List FsNode), x.name = FHASH_FILENAME →
      listFails (x :: rest) = listFails rest) ∧
    (∀ (x : FsNode) (rest : List FsNode), x.name ≠ FHASH_FILENAME →
      listFails (x :: rest) = (nodeFails x || listFails rest)) ∧
    listFails [] = false ∧
    (∀ err : IOError, hashDirectory env filename (.dir name (some err) files) = .error err) := by
  have h1 := hashDirectory_fails env filename name readErr files
  refine ⟨h1, ?_, ?_, ?_, ?_, ?_, ?_, ?_⟩
  · rw [except_ok_or_error, h1]
    simp
  · simp [nodeFails]
  · intro n st
    simp [nodeFails]
  · intro x rest hx
    simp [listFails, hx]
  · intro x rest hx
    simp [listFails, hx]
  · simp [listFails]
  · intro err
    simp [hashDirectory]

/-! ## The order of the sort -/

/-- C17: comparing the hexadecimal renderings of two byte sequences as strings gives the
same result as comparing the byte sequences themselves lexicographically; `Less` is
irreflexive and transitive, and neither of two entries is `Less` than the other exactly
when their digests are equal. -/
theorem Less_is_bytewise_order :
    (∀ a b : Str, strLess (hexEncode a) (hexEncode b) = strLess a b) ∧
    (∀ a b : HashEntry, Less a b = strLess a.Hash b.Hash) ∧
    (∀ a : HashEntry, Less a a = false) ∧
    (∀ a b c : HashEntry, Less a b = true → Less b c = true → Less a c = true) ∧
    (∀ a b : HashEntry, (Less a b = false ∧ Less b a = false) ↔ a.Hash = b.Hash) := by
  refine ⟨strLess_hexEncode, fun a b => strLess_hexEncode _ _, fun a => strLess_irrefl _,
    fun a b c h1 h2 => strLess_trans _ _ _ h1 h2, ?_⟩
  intro a b
  constructor
  · rintro ⟨h1, h2⟩
    exact hexEncode_injective _ _ (strLess_antisymm _ _ h1 h2)
  · intro h
    simp only [Less, h]
    exact ⟨strLess_irrefl _, strLess_irrefl _⟩

/-- C17, at the digests `0a ff` and `0b 00`. -/
theorem Less_is_bytewise_order_witness :
    Less (HashEntry.mk FILE [10, 255] 0 [] []) (HashEntry.mk FILE [11, 0] 0 [] []) = true :=
  Less_is_bytewise_order.2.2.2.1 _ (HashEntry.mk FILE [10, 255, 3] 0 [] []) _
    (by decide) (by decide)

/-! ## The encoding of a children sequence -/

/-- C18: two sequences of triples (kind, digest, size) with kinds `FILE` or `DIR` whose
name-free lines concatenate to the same byte sequence are equal: same length, same
triples, same order. -/
theorem children_encoding_unambiguous (l1 l2 : List (EntryType × Str × Int))
    (h1 : ∀ t ∈ l1, t.1 = FILE ∨ t.1 = DIR) (h2 : ∀ t ∈ l2, t.1 = FILE ∨ t.1 = DIR)
    (h : concatStr (l1.map tripleLine) = concatStr (l2.map tripleLine)) : l1 = l2 :=
  tripleLines_unique l1 l2 h1 h2 h

/-- C18, at a sequence of two triples compared with itself, with its lines written out. -/
theorem children_encoding_unambiguous_witness :
    concatStr ([(FILE, [10, 255], 5), (DIR, [], 0)].map tripleLine) = ascii "F 0aff:5\nD :0\n" ∧
    [(FILE, ([10, 255] : Str), (5 : Int)), (DIR, [], 0)] = [(FILE, [10, 255], 5), (DIR, [], 0)] :=
  ⟨by decide, children_encoding_unambiguous _ _
    (by intro t ht; simp only [List.mem_cons, List.mem_singleton, List.not_mem_nil, or_false] at ht
        rcases ht with rfl | rfl
        · exact Or.inl rfl
        · exact Or.inr rfl)
    (by intro t ht; simp only [List.mem_cons, List.mem_singleton, List.not_mem_nil, or_false] at ht
        rcases ht with rfl | rfl
        · exact Or.inl rfl
        · exact Or.inr rfl)
    rfl⟩

/-- C13, on a tree whose subdirectory `s` holds a file that cannot be opened: the run
fails; with the same file inside a directory named `.fhash` it succeeds. -/
theorem hashDirectory_error_propagation_witness :
    (∃ err, hashDirectory idEnv (ascii "d")
      (plainDir "d" [plainFile "a" "x", plainDir "s" [brokenFile "k"]]) = .error err) ∧
    (∃ e, hashDirectory idEnv (ascii "d")
      (plainDir "d" [plainFile "a" "x", plainDir ".fhash" [brokenFile "k"]]) = .ok e) :=
  ⟨(hashDirectory_error_propagation idEnv (ascii "d") (ascii "d") none _).1.mpr (by decide),
   (hashDirectory_error_propagation idEnv (ascii "d") (ascii "d") none _).2.1.mpr (by decide)⟩

/-! ## Sizes -/

/-- C11: the size of a file entry is the byte length of the file. When `hashDirectory`
succeeds on a tree whose reached files (`totalBytes`: no name on the way is `.fhash`)
have fewer than `2^63` bytes in total, the size of the returned entry is that total, and
the size of every directory entry in the result is the sum of the sizes of its children;
a child named `.fhash` adds nothing to the total. -/
theorem cumulative_size (env : Env) (hsort : SortSpec env.sort) (filename : Str)
    (node : FsNode) (e : HashEntry) (h : hashDirectory env filename node = .ok e)
    (hb : totalBytes node < 2 ^ 63) :
    e.Size = Int.ofNat (totalBytes node) ∧
    (∀ d, Nested d e → d.Typ = DIR → d.Size = (d.Files.map HashEntry.Size).sum) ∧
    (∀ (p n : Str) (st : FileState) (f : HashEntry), hashFile env p (.file n st) = .ok f →
      f.Size = Int.ofNat st.content.length) ∧
    (∀ (n : Str) (readErr : Option IOError) (ch : List FsNode),
      totalBytes (.dir n readErr ch) = listBytes ch) ∧
    (∀ (n : Str) (st : FileState), totalBytes (.file n st) = st.content.length) ∧
    (∀ (x : FsNode) (rest : List FsNode), x.name = FHASH_FILENAME →
      listBytes (x :: rest) = listBytes rest) ∧
    (∀ (x : FsNode) (rest : List FsNode), x.name ≠ FHASH_FILENAME →
      listBytes (x :: rest) = totalBytes x + listBytes rest) ∧
    listBytes [] = 0 := by
  refine ⟨?_, ?_, ?_, fun _ _ _ => rfl, fun _ _ => rfl, ?_, ?_, rfl⟩
  · obtain ⟨name, files, es, hnode, hce, he⟩ := hashDirectory_ok env filename node e h
    subst hnode
    rw [he]
    exact (dirEntry_size env hsort filename files es hce hb).1
  · intro d hd hdir
    obtain ⟨q, name, files, es, hr, hce, hde⟩ :=
      nested_dir_entry env hsort d e hd filename node h hdir
    have hle := Reaches_bytes env _ _ _ _ hr
    rw [hde]
    exact (dirEntry_size env hsort q files es hce
      (by simp only [totalBytes] at hle; omega)).2
  · intro p n st f hf
    obtain ⟨n0, c, hx, hev⟩ := hashFile_ok env p _ f hf
    simp only [FsNode.file.injEq] at hx
    obtain ⟨_, hst⟩ := hx
    subst hst
    rw [hev]
    rfl
  · intro x rest hx
    simp [listBytes, hx]
  · intro x rest hx
    simp [listBytes, hx]

/-- C11, on `sampleTree`: 5 + 2 + 5 bytes, the two manifests left out. -/
theorem cumulative_size_witness :
    (entryOf (hashDirectory idEnv (ascii "d") sampleTree)).Size = 12 :=
  (cumulative_size idEnv GoInsertionSort_spec (ascii "d") sampleTree _ rfl (by decide)).1

/-! ## Exclusion by exact name -/

/-- C14: for the returned entry and every directory entry nested in it, the children
sequence holds exactly one entry for each listed child whose name is not `.fhash`, and
none for a child named `.fhash`, file or directory: the entries computed for the listed
children with another name, in listing order, are a rearrangement of `Files`, and their
number is the number of listed children not named `.fhash`. Names such as `.git` and
`.fhash2` are not excluded. -/
theorem exact_name_exclusion (env : Env) (hsort : SortSpec env.sort) (filename : Str)
    (node : FsNode) (e : HashEntry) (h : hashDirectory env filename node = .ok e)
    (d : HashEntry) (hd : Nested d e) (hdir : d.Typ = DIR) :
    (∃ q name files es, Reaches env filename node q (.dir name none files) ∧
      childEntries env q files = .ok es ∧ d.Files.Perm es ∧
      List.Forall₂ (fun x c => hashChild env q x = .ok c) (files.filter isListed) es ∧
      d.Files.length = (files.filter isListed).length ∧
      d.Files.length = files.countP (fun x => decide (x.name ≠ FHASH_FILENAME))) ∧
    (∀ x : FsNode, isListed x = true ↔ x.name ≠ FHASH_FILENAME) ∧
    ascii ".git" ≠ FHASH_FILENAME ∧ ascii ".fhash2" ≠ FHASH_FILENAME ∧
    ascii ".FHASH" ≠ FHASH_FILENAME := by
  refine ⟨?_, fun x => by simp [isListed], by decide, by decide, by decide⟩
  obtain ⟨q, name, files, es, hr, hce, hp, _⟩ :=
    nested_dir_sorted env hsort d e hd filename node h hdir
  have hf := childEntries_forall2 env q files es hce
  have hlen : d.Files.length = (files.filter isListed).length := by
    rw [hp.length_eq, hf.length_eq]
  refine ⟨q, name, files, es, hr, hce, hp, hf, hlen, ?_⟩
  rw [hlen, List.countP_eq_length_filter]
  rfl

/-- C14, at the root entry of `sampleTree`, which lists four children, one of them a
manifest. -/
theorem exact_name_exclusion_witness :
    ∃ q name files es, Reaches idEnv (ascii "d") sampleTree q (.dir name none files) ∧
      childEntries idEnv q files = .ok es ∧
      (entryOf (hashDirectory idEnv (ascii "d") sampleTree)).Files.Perm es ∧
      (entryOf (hashDirectory idEnv (ascii "d") sampleTree)).Files.length =
        (files.filter isListed).length := by
  obtain ⟨⟨q, name, files, es, hr, hce, hp, _, hlen, _⟩, _⟩ :=
    exact_name_exclusion idEnv GoInsertionSort_spec (ascii "d") sampleTree
      (entryOf (hashDirectory idEnv (ascii "d") sampleTree)) rfl
      (entryOf (hashDirectory idEnv (ascii "d") sampleTree)) (Nested.self _) rfl
  exact ⟨q, name, files, es, hr, hce, hp, hlen⟩

/-! ## The shape of the entry tree -/

/-- C15: the entry that `hashDirectory` returns has kind `DIR`; every entry in it has kind
`FILE` or `DIR`, never `SUMMARY`, and a `FILE` entry has no children; the entry of a
listed child has kind `DIR` exactly when the listing reports the child as a directory. -/
theorem entry_tree_shape (env : Env) (hsort : SortSpec env.sort) (filename : Str)
    (node : FsNode) (e : HashEntry) (h : hashDirectory env filename node = .ok e) :
    e.Typ = DIR ∧
    (∀ d, Nested d e → (d.Typ = FILE ∨ d.Typ = DIR) ∧ d.Typ ≠ SUMMARY ∧
      (d.Typ = FILE → d.Files = [])) ∧
    (∀ (q : Str) (x : FsNode) (c : HashEntry), hashChild env q x = .ok c →
      ((c.Typ = DIR ↔ x.isDir = true) ∧ (c.Typ = FILE ↔ x.isDir = false))) := by
  obtain ⟨name, files, es, hnode, _, he⟩ := hashDirectory_ok env filename node e h
  refine ⟨by rw [he]; rfl, ?_, ?_⟩
  · intro d hd
    have hnode' : hashNode env filename node = .ok e := by
      unfold hashNode
      rw [hnode]
      simpa [FsNode.isDir, hnode] using h
    rcases nested_kind env hsort d e hd filename node hnode' with ⟨h1, h2⟩ | h1
    · refine ⟨Or.inl h1, by rw [h1]; decide, fun _ => h2⟩
    · refine ⟨Or.inr h1, by rw [h1]; decide, fun hf => ?_⟩
      rw [h1] at hf
      exact absurd hf (by decide)
  · intro q x c hc
    rcases hashNode_kind env _ x c hc with ⟨h1, h2⟩ | ⟨h1, h2, _⟩
    · rw [h1, h2]
      exact ⟨by simp, by simp; decide⟩
    · rw [h1, h2]
      exact ⟨by simp; decide, by simp⟩

/-- C15, at the root entry of `sampleTree`. -/
theorem entry_tree_shape_witness :
    (entryOf (hashDirectory idEnv (ascii "d") sampleTree)).Typ = DIR :=
  (entry_tree_shape idEnv GoInsertionSort_spec (ascii "d") sampleTree _ rfl).1

/-! ## The name field -/

/-- C16, refuted: in the result for the directory `top/d` that holds the file `a` and the
subdirectory `s`, the name field of the entry of `a` is the path `top/d/a`, not the base
name `a`; the name fields of the directory entries are the base names `d` and `s`. -/
theorem file_entry_name_is_path :
    (entryOf (hashDirectory idEnv (ascii "top/d")
      (plainDir "d" [plainFile "a" "hello", plainDir "s" [plainFile "x" "y"]]))).Files.map
        (fun c => (c.Typ, c.Name)) = [(DIR, ascii "s"), (FILE, ascii "top/d/a")] ∧
    (entryOf (hashDirectory idEnv (ascii "top/d")
      (plainDir "d" [plainFile "a" "hello", plainDir "s" [plainFile "x" "y"]]))).Name
        = ascii "d" ∧
    ascii "top/d/a" ≠ Base (ascii "top/d/a") := by
  decide

/-- C16, amended: in the result of `hashDirectory`, the name field of every directory entry
is the base name of the path the directory was hashed at, and the name field of every file
entry is the whole path the file was hashed at, the path of its directory joined with its
name. `filepath.Base` of either name field, which is what `printHashEntry` prints, is
the base name of the path. -/
theorem entry_names (env : Env) (hsort : SortSpec env.sort) (filename : Str)
    (node : FsNode) (e : HashEntry) (h : hashDirectory env filename node = .ok e) :
    e.Name = Base filename ∧
    (∀ d, Nested d e → d.Typ = DIR →
      ∃ q name files, Reaches env filename node q (.dir name none files) ∧
        d.Name = Base q ∧ Base d.Name = Base q) ∧
    (∀ d, Nested d e → d.Typ = FILE →
      ∃ q name files x, Reaches env filename node q (.dir name none files) ∧
        x ∈ files ∧ x.isDir = false ∧ d.Name = env.join q x.name ∧
        Base d.Name = Base (env.join q x.name)) ∧
    (∀ (q : Str) (x : FsNode) (c : HashEntry), hashChild env q x = .ok c →
      c.Name = if x.isDir then Base (env.join q x.name) else env.join q x.name) := by
  refine ⟨?_, ?_, ?_, ?_⟩
  · obtain ⟨_, _, es, _, _, he⟩ := hashDirectory_ok env filename node e h
    rw [he]
    rfl
  · intro d hd hdir
    obtain ⟨q, name, files, es, hr, _, hde⟩ :=
      nested_dir_entry env hsort d e hd filename node h hdir
    have hn : d.Name = Base q := by rw [hde]; rfl
    exact ⟨q, name, files, hr, hn, by rw [hn, Base_idem]⟩
  · intro d hd hfile
    obtain ⟨q, name, files, x, hr, hx, _, hxd, hf⟩ :=
      nested_file_entry env hsort d e hd filename node h hfile
    obtain ⟨_, _, _, hev⟩ := hashFile_ok env _ x d hf
    have hn : d.Name = env.join q x.name := by rw [hev]; rfl
    exact ⟨q, name, files, x, hr, hx, hxd, hn, by rw [hn]⟩
  · intro q x c hc
    rcases hashChild_cases env q x c hc with ⟨hd, hh⟩ | ⟨hd, hh⟩
    · obtain ⟨_, _, es, _, _, he⟩ := hashDirectory_ok env _ x c hh
      rw [hd, he]
      rfl
    · obtain ⟨_, _, _, hev⟩ := hashFile_ok env _ x c hh
      rw [hd, hev]
      rfl

/-- C16 as amended, at the root entry of `sampleTree` hashed at the path `top/d/`. -/
theorem entry_names_witness :
    (entryOf (hashDirectory idEnv (ascii "top/d/") sampleTree)).Name = ascii "d" :=
  (entry_names idEnv GoInsertionSort_spec (ascii "top/d/") sampleTree _ rfl).1

/-! ## Compositionality -/

/-- C19: the digest and size that `hashDirectory` returns depend on the children only
through the sequence, in listing order, of the triples (kind, digest, size) of the
children not named `.fhash`: two directories with the same sequence get the same digest
and size, whatever the names, contents and descendants. The entry recorded in a parent
for a subdirectory is the entry that `hashDirectory` returns on that subdirectory at its
path, and at any other path `hashDirectory` returns an entry with the same kind, digest
and size whose children have the same triples. -/
theorem merkle_compositionality (env : Env) (hsort : SortSpec env.sort)
    (hobl : SortOblivious env.sort) :
    (∀ (p p' n n' : Str) (files files' : List FsNode) (es es' : List HashEntry),
      childEntries env p files = .ok es → childEntries env p' files' = .ok es' →
      es.map triple = es'.map triple →
      ∃ e e', hashDirectory env p (.dir n none files) = .ok e ∧
        hashDirectory env p' (.dir n' none files') = .ok e' ∧
        e.Hash = e'.Hash ∧ e.Size = e'.Size) ∧
    (∀ (p n : Str) (files : List FsNode) (e : HashEntry),
      hashDirectory env p (.dir n none files) = .ok e →
      ∀ (m : Str) (readErr : Option IOError) (ch : List FsNode),
        FsNode.dir m readErr ch ∈ files → m ≠ FHASH_FILENAME →
        ∃ c ∈ e.Files, hashDirectory env (env.join p m) (.dir m readErr ch) = .ok c ∧
          ∀ q : Str, ∃ c', hashDirectory env q (.dir m readErr ch) = .ok c' ∧
            triple c' = triple c ∧ c'.Files.map triple = c.Files.map triple) := by
  constructor
  · intro p p' n n' files files' es es' h1 h2 ht
    refine ⟨dirEntry env p es, dirEntry env p' es', hashDirectory_dir_of env p n files es h1,
      hashDirectory_dir_of env p' n' files' es' h2, ?_⟩
    have := dirEntry_of_forall2 env hobl p p' es es' (forall2_of_map_triple es es' ht)
    simp only [triple, Prod.mk.injEq] at this
    exact ⟨this.2.1, this.2.2⟩
  · intro p n files e h m readErr ch hmem hm
    obtain ⟨es, hce, he⟩ := hashDirectory_dir_ok env p n files e h
    obtain ⟨c, hc, hcx⟩ := childEntries_of_mem env p files _ hmem hm es hce
    have hcx' : hashDirectory env (env.join p m) (.dir m readErr ch) = .ok c := hcx
    refine ⟨c, ?_, hcx', ?_⟩
    · rw [he]
      exact (hsort es).1.symm.subset hc
    · intro q
      obtain ⟨_, _, _, hnode, _, _⟩ := hashDirectory_ok env _ _ c hcx'
      simp only [FsNode.dir.injEq] at hnode
      obtain ⟨_, hre, _⟩ := hnode
      subst hre
      exact hashDirectory_path_indep env hobl (env.join p m) q m ch c hcx'

/-- C19, on two directories hashed at different paths whose children differ in names and
in what lies below them but yield the same triples: the file `a` (content `hello`) next to
the directory `s` holding the file `x` (content `ab`), and the file `k` (content `hello`)
next to the directory `t` holding a manifest and the file `y` (content `ab`). -/
theorem merkle_compositionality_witness :
    ∃ e e', hashDirectory idEnv (ascii "d")
        (plainDir "d" [plainFile "a" "hello", plainDir "s" [plainFile "x" "ab"]]) = .ok e ∧
      hashDirectory idEnv (ascii "other")
        (plainDir "o" [plainFile "k" "hello",
          plainDir "t" [plainFile ".fhash" "zz", plainFile "y" "ab"]]) = .ok e' ∧
      e.Hash = e'.Hash ∧ e.Size = e'.Size :=
  (merkle_compositionality idEnv GoInsertionSort_spec GoInsertionSort_oblivious).1
    (ascii "d") (ascii "other") (ascii "d") (ascii "o")
    [plainFile "a" "hello", plainDir "s" [plainFile "x" "ab"]]
    [plainFile "k" "hello", plainDir "t" [plainFile ".fhash" "zz", plainFile "y" "ab"]]
    _ _ rfl rfl (by decide)

/-! ## Order independence -/

/-- C3: for a directory that contains only files, given as (name, content) pairs with
distinct names, `hashDirectory` succeeds and returns the same entry, hence the same
digest, for every order in which the file system reports those files: line 81 of the
source obtains the listing from `ioutil.ReadDir`, which returns what is enumerated sorted
by filename. -/
theorem files_order_independent (env : Env) (readDir : List FsNode → List FsNode)
    (hrd : ReadDirSpec readDir) (filename name : Str) (pairs pairs' : List (Str × Str))
    (hperm : pairs.Perm pairs') (hnames : (pairs.map Prod.fst).Nodup) :
    ∃ e, hashDirectory env filename (.dir name none (readDir (pairs.map fileNode))) = .ok e ∧
      ∃ e', hashDirectory env filename (.dir name none (readDir (pairs'.map fileNode)))
          = .ok e' ∧
        e'.Hash = e.Hash ∧ e' = e := by
  obtain ⟨e, he⟩ := hashDirectory_files_ok env readDir hrd filename name pairs
  have hn : ((pairs.map fileNode).map FsNode.name).Nodup := by
    have : (pairs.map fileNode).map FsNode.name = pairs.map Prod.fst := by
      rw [List.map_map]
      rfl
    rw [this]
    exact hnames
  have heq := readDir_unique readDir hrd _ _ (hperm.map fileNode) hn
  exact ⟨e, he, e, by rw [← heq]; exact he, rfl, rfl⟩

/-- C3, with the digest of a byte sequence taken to be the sequence itself, on the files
`a`, `b`, `c` with contents `hello`, `world`, `hello` enumerated in two orders. -/
theorem files_order_independent_witness :
    ∃ e, hashDirectory idEnv (ascii "d") (.dir (ascii "d") none (sortByName
        ([(ascii "a", ascii "hello"), (ascii "b", ascii "world"),
          (ascii "c", ascii "hello")].map fileNode))) = .ok e ∧
      ∃ e', hashDirectory idEnv (ascii "d") (.dir (ascii "d") none (sortByName
          ([(ascii "c", ascii "hello"), (ascii "b", ascii "world"),
            (ascii "a", ascii "hello")].map fileNode))) = .ok e' ∧
        e'.Hash = e.Hash ∧ e' = e :=
  files_order_independent idEnv sortByName sortByName_spec (ascii "d") (ascii "d")
    [(ascii "a", ascii "hello"), (ascii "b", ascii "world"), (ascii "c", ascii "hello")]
    [(ascii "c", ascii "hello"), (ascii "b", ascii "world"), (ascii "a", ascii "hello")]
    ((List.Perm.cons _ (List.Perm.swap _ _ _)).trans
      ((List.Perm.swap _ _ _).trans (List.Perm.cons _ (List.Perm.swap _ _ _))))
    (by decide)

/-- C4: for every directory tree, files and subdirectories mixed at any depth, in which no
directory holds two children with the same name, `hashDirectory` returns the same result,
hence the same digest, for every order in which the file system reports the children of
each directory, also when two children have equal digests: every listing is obtained from
`ioutil.ReadDir` (line 81 of the source), which returns what is enumerated sorted by
filename. -/
theorem enumeration_order_independent (env : Env) (readDir : List FsNode → List FsNode)
    (hrd : ReadDirSpec readDir) (filename name : Str) (readErr : Option IOError)
    (raw raw' : List FsNode) (hre : Reordered raw raw')
    (hnames : namesDistinct (.dir name readErr raw) = true) :
    hashDirectory env filename (asListed readDir (.dir name readErr raw)) =
      hashDirectory env filename (asListed readDir (.dir name readErr raw')) ∧
    (∀ e, hashDirectory env filename (asListed readDir (.dir name readErr raw)) = .ok e →
      ∃ e', hashDirectory env filename (asListed readDir (.dir name readErr raw')) = .ok e' ∧
        e'.Hash = e.Hash) := by
  have heq := asListed_reordered readDir hrd name readErr raw raw' hre hnames
  refine ⟨by rw [heq], ?_⟩
  intro e he
  exact ⟨e, by rw [← heq]; exact he, rfl⟩

/-- C4, with the digest of a byte sequence taken to be the sequence itself, on a directory
that holds the empty file `a`, the empty directory `b` (same digest as `a`) and the
directory `s` with the files `x` and `y`, enumerated in two orders at both depths. -/
theorem enumeration_order_independent_witness :
    hashDirectory idEnv (ascii "d") (asListed sortByName
        (plainDir "d" [plainFile "a" "", plainDir "b" [],
          plainDir "s" [plainFile "x" "1", plainFile "y" "2"]])) =
      hashDirectory idEnv (ascii "d") (asListed sortByName
        (plainDir "d" [plainDir "b" [], plainFile "a" "",
          plainDir "s" [plainFile "y" "2", plainFile "x" "1"]])) :=
  (enumeration_order_independent idEnv sortByName sortByName_spec (ascii "d") (ascii "d") none
    [plainFile "a" "", plainDir "b" [], plainDir "s" [plainFile "x" "1", plainFile "y" "2"]]
    [plainDir "b" [], plainFile "a" "", plainDir "s" [plainFile "y" "2", plainFile "x" "1"]]
    (Reordered.perm _
      [plainDir "b" [], plainFile "a" "", plainDir "s" [plainFile "x" "1", plainFile "y" "2"]] _
      (List.Perm.swap _ _ _)
      (Reordered.dir _ _ _ _ _ _ Reordered.nil
        (Reordered.file _ _ _ _
          (Reordered.dir _ _ _ _ _ _
            (Reordered.perm _ _ _ (List.Perm.swap _ _ _)
              (Reordered.file _ _ _ _ (Reordered.file _ _ _ _ Reordered.nil)))
            Reordered.nil))))
    (by decide)).1

end Fhash
